import Mathlib

/-!
# Verification of the goji HTTP routing engine

Shallow embedding of the goji router (pattern compiler `New`/`SpecMatcher.Match`
in match.go, the radix trie `trieNode.add`/`router.Route`, registration
`router.Handle`, the context plumbing `matchContext.Value`/`match.Value`, and
the `Mux` dispatch entry point), together with proofs of the specification
claims about it.

Modelling conventions:
* Go strings are byte strings, modelled as `List Nat` (`Str`); all the code
  does with bytes is compare them, so no modular arithmetic is needed.
* Go's `sort.Search(n, f)` is documented to return the smallest index `i` in
  `[0, n)` with `f i = true` (given the monotonicity precondition that all of
  its call sites here satisfy, thanks to the sortedness invariants), or `n` if
  there is none.  `sortSearch` implements exactly that contract.
* Go's `sort.Sort` on `byPrefix` / `specNames` is an unstable comparison sort;
  at every call site the compared keys are pairwise distinct (trie children
  carry distinct first bytes; pattern names are required to be unique), so any
  comparison sort produces the same list.  `sortChildren` / `sortSpecs` use
  insertion sort.
* Fallible operations return `Option`; `none` models Go's `nil` result.  Where
  a function can panic (the unchecked type assertion in `router.Route`), the
  model returns `none` of an outer `Option` and this is noted at the
  definition.
-/

/-- Go byte strings (`string` values are immutable byte arrays). -/
abbrev Str := List Nat

/-- Build a byte string from Lean string literal syntax (ASCII). -/
def str (s : String) : Str := s.data.map Char.toNat

/-- The byte `'/'`. -/
def slByte : Nat := 47

/-- Go's `<` on strings: lexicographic byte order. -/
def strLt : Str → Str → Bool
  | [], [] => false
  | [], _ :: _ => true
  | _ :: _, [] => false
  | a :: as_, b :: bs => if a < b then true else if b < a then false else strLt as_ bs

/-- `strings.HasSuffix(pat, "/*")`. -/
def hasSuffixSlashStar (pat : Str) : Bool := [47, 42].isSuffixOf pat

/-- `longestPrefix` from the router source: the longest common byte
prefix of two strings. -/
def longestCommon : Str → Str → Str
  | a :: as_, b :: bs => if a = b then a :: longestCommon as_ bs else []
  | _, _ => []

/-- Go's `sort.Search(n, f)` contract: the smallest `i < n` with `f i`,
else `n`.  `searchFrom f i k` scans indices `i, i+1, …, i+k-1`. -/
def searchFrom (f : Nat → Bool) : Nat → Nat → Nat
  | i, 0 => i
  | i, k + 1 => if f i then i else searchFrom f (i + 1) k

/-- `sort.Search` (see module comment). -/
def sortSearch (n : Nat) (f : Nat → Bool) : Nat := searchFrom f 0 n

theorem searchFrom_step_true (f : Nat → Bool) (i k : Nat) (hf : f i = true) :
    searchFrom f i (k + 1) = i := by
  simp [searchFrom, hf]

theorem searchFrom_step_false (f : Nat → Bool) (i k : Nat) (hf : f i = false) :
    searchFrom f i (k + 1) = searchFrom f (i + 1) k := by
  simp [searchFrom, hf]

theorem searchFrom_le (f : Nat → Bool) : ∀ i k, i ≤ searchFrom f i k ∧ searchFrom f i k ≤ i + k := by
  intro i k
  induction k generalizing i with
  | zero => simp [searchFrom]
  | succ k ih =>
    cases hf : f i with
    | true => rw [searchFrom_step_true f i k hf]; omega
    | false =>
      rw [searchFrom_step_false f i k hf]
      have := ih (i + 1)
      omega

theorem searchFrom_not (f : Nat → Bool) : ∀ i k j, i ≤ j → j < searchFrom f i k → f j = false := by
  intro i k
  induction k generalizing i with
  | zero =>
    intro j hij hj
    simp [searchFrom] at hj
    omega
  | succ k ih =>
    intro j hij hj
    cases hf : f i with
    | true => rw [searchFrom_step_true f i k hf] at hj; omega
    | false =>
      rw [searchFrom_step_false f i k hf] at hj
      rcases Nat.eq_or_lt_of_le hij with rfl | hlt
      · exact hf
      · exact ih (i + 1) j hlt hj

theorem searchFrom_found (f : Nat → Bool) :
    ∀ i k, searchFrom f i k < i + k → f (searchFrom f i k) = true := by
  intro i k
  induction k generalizing i with
  | zero => intro h; simp [searchFrom] at h
  | succ k ih =>
    intro h
    cases hf : f i with
    | true => rw [searchFrom_step_true f i k hf]; exact hf
    | false =>
      rw [searchFrom_step_false f i k hf] at h ⊢
      exact ih (i + 1) (by omega)

theorem sortSearch_le (n : Nat) (f : Nat → Bool) : sortSearch n f ≤ n := by
  have := searchFrom_le f 0 n
  simpa [sortSearch] using this.2

theorem sortSearch_not (n : Nat) (f : Nat → Bool) (j : Nat) (h : j < sortSearch n f) :
    f j = false :=
  searchFrom_not f 0 n j (Nat.zero_le _) h

theorem sortSearch_found (n : Nat) (f : Nat → Bool) (h : sortSearch n f < n) :
    f (sortSearch n f) = true :=
  searchFrom_found f 0 n (by simpa using h)

/-- `sort.Search` returns exactly `j` when `f` is false strictly below `j`
and true at `j` (the monotone case). -/
theorem sortSearch_eq (n : Nat) (f : Nat → Bool) (j : Nat) (hj : j < n)
    (hbelow : ∀ k, k < j → f k = false) (hat : f j = true) : sortSearch n f = j := by
  rcases Nat.lt_trichotomy (sortSearch n f) j with h | h | h
  · have := sortSearch_found n f (lt_of_lt_of_le (lt_of_lt_of_le h (le_of_lt hj)) (le_refl n))
    have hfalse := hbelow _ h
    rw [hfalse] at this
    exact absurd this (by simp)
  · exact h
  · have := sortSearch_not n f j h
    rw [hat] at this
    exact absurd this (by simp)

/-- Association-list lookup, modelling Go map read `m[k]`. -/
def lookupAssoc {α : Type} : List (Str × α) → Str → Option α
  | [], _ => none
  | (k0, v) :: rest, k => if k0 = k then some v else lookupAssoc rest k

/-- Association-list insert-or-update, modelling Go map write `m[k] = v`. -/
def setAssoc {α : Type} : List (Str × α) → Str → α → List (Str × α)
  | [], k, v => [(k, v)]
  | (k0, v0) :: rest, k, v =>
    if k0 = k then (k, v) :: rest else (k0, v0) :: setAssoc rest k v

theorem lookupAssoc_setAssoc_self {α : Type} (l : List (Str × α)) (k : Str) (v : α) :
    lookupAssoc (setAssoc l k v) k = some v := by
  induction l with
  | nil => simp [setAssoc, lookupAssoc]
  | cons p rest ih =>
    obtain ⟨k0, v0⟩ := p
    by_cases h : k0 = k
    · simp [setAssoc, h, lookupAssoc]
    · simp [setAssoc, h, lookupAssoc, ih]

theorem lookupAssoc_setAssoc_ne {α : Type} (l : List (Str × α)) (k k' : Str) (v : α)
    (h : k ≠ k') : lookupAssoc (setAssoc l k v) k' = lookupAssoc l k' := by
  induction l with
  | nil => simp [setAssoc, lookupAssoc, h]
  | cons p rest ih =>
    obtain ⟨k0, v0⟩ := p
    by_cases h0 : k0 = k
    · subst h0
      simp [setAssoc, lookupAssoc, h]
    · simp [setAssoc, h0, lookupAssoc, ih]

/-! ## Context model (part_001: contextKey, nameKey, WithPath/Path; match.go: matchContext) -/

/-- Context keys.  `matcherKey`, `handlerKey`, `pathKey` are the `contextKey`
constants; `name s` is `nameKey(s)`.  The `allNames` key (a separate Go value
of a distinct type) is modelled by the dedicated `valueAllNames` function,
since reading it is the one stateful operation (it can mutate a bound map). -/
inductive Key where
  | matcherKey
  | handlerKey
  | pathKey
  | name (s : Str)
deriving DecidableEq

/-- Context values.  `vstr` is a Go `string`; `vnat` stands for any other
value bound in a context (handlers, matchers and test values are modelled by
numeric identities, since the routing code never inspects them). -/
inductive Val where
  | vstr (s : Str)
  | vnat (n : Nat)
deriving DecidableEq

/-- Compiled pattern (`SpecMatcher` in match.go): parallel arrays of
name-sorted capture specs `(name, positional slot)`, break bytes and
literals (one more literal than capture), plus the wildcard flag and the
optional method restriction. -/
structure SpecMatcher where
  raw : Str
  methods : Option (List Str)
  specs : List (Str × Nat)
  breaks : List Nat
  literals : List Str
  wildcard : Bool
deriving DecidableEq

/-- A request context: `background`, `context.WithValue` layers, a
`context.WithValue(·, allNames, m)` layer (the bound map lives in the heap,
`r` is its reference), the `matchContext` overlay produced by
`SpecMatcher.Match`, and the `match` overlay produced by routing.  The
`match` overlay records the winning route's registration index (standing for
the stored matcher value, which, being a function, cannot live inside an
inductive type) and the handler's identity. -/
inductive Ctx where
  | background
  | withValue (parent : Ctx) (k : Key) (v : Val)
  | withAllNames (parent : Ctx) (r : Nat)
  | matchCtx (parent : Ctx) (sp : SpecMatcher) (mts : List Str)
  | matchOverlay (parent : Ctx) (m : Option Nat) (h : Option Nat)
deriving DecidableEq

/-- An `*http.Request`: its method, its context, and its URL's
`EscapedPath()`. -/
structure Request where
  method : Str
  ctx : Ctx
  urlPath : Str
deriving DecidableEq

/-- The sorted-name lookup in `matchContext.Value` for a `nameKey`:
`sort.Search` for the first spec with `name >= k`, then an equality check. -/
def specsLookup (specs : List (Str × Nat)) (mts : List Str) (s : Str) : Option Str :=
  let j := sortSearch specs.length (fun j => ! strLt (specs.getD j ([], 0)).1 s)
  if j < specs.length ∧ (specs.getD j ([], 0)).1 = s then
    some (mts.getD (specs.getD j ([], 0)).2 [])
  else none

/-- `Context.Value` for all keys other than `allNames` (see `Key`).
Models `context.WithValue` lookup, `matchContext.Value` (match.go) and
`match.Value` (router source).  An unmatched `match` overlay stores Go `nil`
matcher/handler fields, so those keys resolve to `none` without consulting
the parent. -/
def ctxValueP : Ctx → Key → Option Val
  | .background, _ => none
  | .withValue p k0 v, k => if k0 = k then some v else ctxValueP p k
  | .withAllNames p _, k => ctxValueP p k
  | .matchCtx p sp ms, k =>
    match k with
    | .pathKey =>
      some (.vstr (if ms.length = sp.specs.length + 1 then ms.getD (ms.length - 1) [] else []))
    | .name s =>
      match specsLookup sp.specs ms s with
      | some v => some (.vstr v)
      | none => ctxValueP p (.name s)
    | _ => ctxValueP p k
  | .matchOverlay p m h, k =>
    match k with
    | .matcherKey => m.map Val.vnat
    | .handlerKey => h.map Val.vnat
    | _ => ctxValueP p k

/-- `Path(ctx)` from part_001: the `pathKey` value, or `""` when unbound.
(Go panics when `pathKey` is bound to a non-string; the theorems below only
instantiate contexts where it is a string or absent, and the router-level
panic is modelled separately in `routeR`.) -/
def pathOfD (ctx : Ctx) : Str :=
  match ctxValueP ctx .pathKey with
  | some (.vstr s) => s
  | _ => []

/-! ## Pattern compiler (`New` in match.go) -/

/-- The break bytes `/`, `.`, `;`, `,` (`breaksRE`'s character class). -/
def isBreak (c : Nat) : Bool := c == 47 || c == 46 || c == 59 || c == 44

/-- Length of the maximal leading run of non-break bytes (`[^/.;,]+`'s
greedy match). -/
def nameLen : Str → Nat
  | [] => 0
  | c :: rest => if isBreak c then 0 else nameLen rest + 1

/-- Byte at index `q` (out of range reads never occur on the paths the code
takes; they default to 0). -/
def getByte (pat : Str) (q : Nat) : Nat := pat.getD q 0

/-- Go slice `pat[a:b]`. -/
def goSlice (pat : Str) (a b : Nat) : Str := (pat.drop a).take (b - a)

/-- The scanning loop of `breaksRE.FindAllStringSubmatchIndex(pat, -1)`:
each successive leftmost match of `[/.;,]:([^/.;,]+)`, scanning from
position `q`.  The structural `fuel` argument only bounds the number of
iterations; since `q` strictly increases each step and the scan stops at
`q ≥ len(pat)`, a fuel of `len(pat)` never expires (when it reaches 0,
`q ≥ len(pat)` already holds and both forms return `[]`). -/
def findMatchesF (pat : Str) : Nat → Nat → List (Nat × Nat)
  | 0, _ => []
  | fuel + 1, q =>
    if q < pat.length then
      if isBreak (getByte pat q) ∧ getByte pat (q + 1) = 58 ∧ 0 < nameLen (pat.drop (q + 2)) then
        (q + 2, q + 2 + nameLen (pat.drop (q + 2))) ::
          findMatchesF pat fuel (q + 2 + nameLen (pat.drop (q + 2)))
      else findMatchesF pat fuel (q + 1)
    else []

/-- `breaksRE.FindAllStringSubmatchIndex(pat, -1)`: the `(a, b)` index pairs
of the capture-name group of each match. -/
def findMatches (pat : Str) : List (Nat × Nat) := findMatchesF pat pat.length 0

/-- The literal/spec/break-building loop of `New`: given the group index
pairs, the current literal start `n` and the next slot index `i`, produce
(initial literals, positional specs, breaks, final `n`). -/
def buildParts (pat : Str) : List (Nat × Nat) → Nat → Nat → (List Str × List (Str × Nat) × List Nat × Nat)
  | [], _, n => ([], [], [], n)
  | (a, b) :: rest, i, n =>
    let parts := buildParts pat rest (i + 1) b
    (goSlice pat n (a - 1) :: parts.1,
     (goSlice pat a b, i) :: parts.2.1,
     (if b = pat.length then slByte else getByte pat b) :: parts.2.2.1,
     parts.2.2.2)

/-- Insertion into a name-sorted spec list. -/
def insertSpec (x : Str × Nat) : List (Str × Nat) → List (Str × Nat)
  | [] => [x]
  | y :: ys => if strLt x.1 y.1 then x :: y :: ys else y :: insertSpec x ys

/-- `sort.Sort(p.specs)`: sort specs by name (see module comment on
comparison sorts). -/
def sortSpecs : List (Str × Nat) → List (Str × Nat)
  | [] => []
  | x :: xs => insertSpec x (sortSpecs xs)

/-- `New(pat, opts...)` from match.go; the optional method restriction
(`WithMethod`) is passed directly as `methods`. -/
def New (pat0 : Str) (methods : Option (List Str)) : SpecMatcher :=
  let w := hasSuffixSlashStar pat0
  let pat := if w then pat0.dropLast else pat0
  let parts := buildParts pat (findMatches pat) 0 0
  { raw := pat0
    methods := methods
    specs := sortSpecs parts.2.1
    breaks := parts.2.2.1
    literals := parts.1 ++ [pat.drop parts.2.2.2]
    wildcard := w }

/-- `Get(pat)`: GET- and HEAD-restricted pattern. -/
def GetP (pat : Str) : SpecMatcher := New pat (some [str "GET", str "HEAD"])

/-! ## Pattern matcher (`SpecMatcher.Match` in match.go) -/

/-- The capture-scanning loop index: the first `m` with `path[m] = bc` or
`path[m] = '/'`, else `len(path)`. -/
def breakIdx (bc : Nat) : Str → Nat
  | [] => 0
  | c :: rest => if c = bc ∨ c = slByte then 0 else breakIdx bc rest + 1

/-- The literal/capture loop of `Match`: consume `(literal, capture)` pairs
left to right; each literal must be a prefix of the remaining path, and each
capture span (up to the first break byte or `/`) must be nonempty.  Returns
the raw capture spans and the path remainder. -/
def matchCaps : List Nat → List Str → Str → Option (List Str × Str)
  | [], _, path => some ([], path)
  | _ :: _, [], _ => none
  | bc :: bcs, lit :: lits, path =>
    if lit <+: path then
      let rest := path.drop lit.length
      let m := breakIdx bc rest
      if m = 0 then none
      else
        match matchCaps bcs lits (rest.drop m) with
        | some x => some (rest.take m :: x.1, x.2)
        | none => none
    else none

/-- The structural phase of `Match` (everything before percent-decoding):
the capture loop followed by the tail-literal check.  On success, returns
the `scratch` array: the raw capture spans, plus — for wildcard patterns —
the remainder including its leading separator byte.

(For a wildcard `SpecMatcher` produced by `New`, the tail literal ends in
`/` and is nonempty; Go would panic on `path[len(tail)-1:]` for an empty
tail, which never occurs.) -/
def matchRawFull (p : SpecMatcher) (path : Str) : Option (List Str) :=
  match matchCaps p.breaks (p.literals.take p.breaks.length) path with
  | none => none
  | some x =>
    let tail := p.literals.getD p.breaks.length []
    if p.wildcard then
      if tail <+: x.2 then some (x.1 ++ [x.2.drop (tail.length - 1)]) else none
    else
      if x.2 = tail then some x.1 else none

/-- `ishex` from util.go (modelled; see `unescape`). -/
def ishex (c : Nat) : Bool :=
  (48 ≤ c ∧ c ≤ 57) ∨ (97 ≤ c ∧ c ≤ 102) ∨ (65 ≤ c ∧ c ≤ 70)

/-- `unhex` from util.go (modelled; see `unescape`). -/
def unhex (c : Nat) : Nat :=
  if 48 ≤ c ∧ c ≤ 57 then c - 48
  else if 97 ≤ c ∧ c ≤ 102 then c - 97 + 10
  else if 65 ≤ c ∧ c ≤ 70 then c - 65 + 10
  else 0

/-- Modelled from the spec: `unescape` lives in util.go, which is not among
the provided sources (only util_test.go is).  Per §4.1 step 4 of the spec
("Percent-decode every raw capture span; a decoding failure is treated as a
non-match") and the behaviour pinned down by util_test.go, it decodes every
`%XX` hex escape (including `%2f`) and fails on a `%` not followed by two
hex digits. -/
def unescape : Str → Option Str
  | [] => some []
  | c :: rest =>
    if c = 37 then
      match rest with
      | a :: b :: rest2 =>
        if ishex a ∧ ishex b then
          match unescape rest2 with
          | some out => some ((unhex a * 16 + unhex b) :: out)
          | none => none
        else none
      | _ => none
    else
      match unescape rest with
      | some out => some (c :: out)
      | none => none

/-- The decoding loop of `Match`: percent-decode the first `k` entries of
`scratch` (the named captures), leaving the wildcard remainder untouched. -/
def unescapeFirst : Nat → List Str → Option (List Str)
  | 0, l => some l
  | _ + 1, [] => some []
  | k + 1, s :: rest =>
    match unescape s with
    | none => none
    | some s2 =>
      match unescapeFirst k rest with
      | none => none
      | some rest2 => some (s2 :: rest2)

/-- The method-restriction gate at the top of `Match`: fail when a method
set is configured and the request's method is not in it. -/
def methodBlocked (p : SpecMatcher) (m : Str) : Bool :=
  match p.methods with
  | none => false
  | some ms => ! ms.contains m

/-- `SpecMatcher.Match(req)`: method gate, structural phase, decoding phase;
on success the request is enriched with the `matchContext` overlay carrying
the pattern and the decoded `scratch`. -/
def specMatch (p : SpecMatcher) (req : Request) : Option Request :=
  if methodBlocked p req.method then none
  else
    match matchRawFull p (pathOfD req.ctx) with
    | none => none
    | some scratch =>
      match unescapeFirst p.specs.length scratch with
      | none => none
      | some scratch2 => some { req with ctx := .matchCtx req.ctx p scratch2 }

/-- A request with the given method whose context binds `pathKey` to the
given path (as the `Mux` entry point does). -/
def mkReq (m path : Str) : Request :=
  { method := m, ctx := .withValue .background .pathKey (.vstr path), urlPath := path }

/-! ## The `allNames` aggregate read (match.go: `matchContext.Value(allNames)`)

Go's `map[nameKey]interface{}` is a mutable reference type: the map contents
live in a heap, and contexts hold references.  Reading `allNames` through a
`matchContext` either allocates a fresh map (when no map is bound further up
the chain) or writes this overlay's bindings into the already-bound map in
place.  `valueAllNames` is the state-passing model of exactly that branch of
`matchContext.Value`; all other keys are pure and live in `ctxValueP`. -/

/-- Contents of one `map[nameKey]interface{}` (the bindings stored through
`Match` are strings; other user-stored values are modelled as strings too,
since nothing in this code inspects them). -/
abbrev NamesMap := List (Str × Str)

/-- The heap of allocated name maps; a reference is an index. -/
abbrev Heap := List NamesMap

/-- The `for _, p := range m.spec.specs { vs[p.name] = m.matches[p.idx] }`
loop: write each capture into the map. -/
def setEntries (mp : NamesMap) (specs : List (Str × Nat)) (mts : List Str) : NamesMap :=
  specs.foldl (fun mp p => setAssoc mp p.1 (mts.getD p.2 [])) mp

/-- `Context.Value(allNames)`: returns the reference of the resulting map
(Go `nil` is `none`) and the possibly-updated heap. -/
def valueAllNames : Ctx → Heap → Option Nat × Heap
  | .background, h => (none, h)
  | .withValue p _ _, h => valueAllNames p h
  | .withAllNames _ r, h => (some r, h)
  | .matchOverlay p _ _, h => valueAllNames p h
  | .matchCtx p sp mts, h =>
    match valueAllNames p h with
    | (none, h1) =>
      if sp.specs.length = 0 then (none, h1)
      else (some h1.length, h1 ++ [setEntries [] sp.specs mts])
    | (some r, h1) => (some r, h1.set r (setEntries (h1.getD r []) sp.specs mts))

/-- A `none` result of the `allNames` read never touches the heap. -/
theorem valueAllNames_none_heap (c : Ctx) (h : Heap)
    (hn : (valueAllNames c h).1 = none) : (valueAllNames c h).2 = h := by
  induction c generalizing h with
  | background => rfl
  | withValue p k v ih => exact ih h hn
  | withAllNames p r => simp [valueAllNames] at hn
  | matchCtx p sp mts ih =>
    by_cases hp : (valueAllNames p h).1 = none
    · have hh := ih h hp
      simp only [valueAllNames]
      rcases hva : valueAllNames p h with ⟨r?, h1⟩
      rw [hva] at hp hh
      simp at hp hh
      subst hp
      subst hh
      simp only [valueAllNames, hva] at hn
      by_cases hz : sp.specs.length = 0
      · simp [hz]
      · simp [hz] at hn
    · rcases hva : valueAllNames p h with ⟨r?, h1⟩
      rw [hva] at hp
      cases r? with
      | none => exact absurd rfl hp
      | some r => simp [valueAllNames, hva] at hn
  | matchOverlay p m hh ih => exact ih h hn

/-! ## The routing trie (router source: `trieNode`, `child`, `add`, `clone`)

`trieNode` has a route-index list and an edge-labelled child list.  The child
list is a bespoke inductive (`ChildList`) rather than a `List` so that the
whole-tree recursions (`appendAll`, `clone`, `idxList`) are structural and
kernel-reducible; `ChildList.toList`/`ofList` convert to ordinary lists for
the indexed operations the Go code performs on `tn.children`.

`walk` (the descent loop of `router.Route`) and `add` recurse on ever-shorter
suffixes, so they take a structural `fuel` argument; a fuel of the
path/prefix length never expires on the tries the router builds (every
consumed edge label is nonempty there — on a tree with an empty edge label
Go itself would panic, indexing `prefix[0]` in the `sort.Search`
predicate). -/

mutual
inductive TrieNode where
  | mk (routes : List Nat) (children : ChildList)
deriving DecidableEq
inductive ChildList where
  | nil
  | cons (pfx : Str) (node : TrieNode) (rest : ChildList)
deriving DecidableEq
end

def ChildList.toList : ChildList → List (Str × TrieNode)
  | .nil => []
  | .cons p t rest => (p, t) :: rest.toList

def ChildList.ofList : List (Str × TrieNode) → ChildList
  | [] => .nil
  | (p, t) :: rest => .cons p t (ChildList.ofList rest)

@[simp] theorem ChildList.toList_ofList (l : List (Str × TrieNode)) :
    (ChildList.ofList l).toList = l := by
  induction l with
  | nil => rfl
  | cons c rest ih => obtain ⟨p, t⟩ := c; simp [ChildList.ofList, ChildList.toList, ih]

/-- `tn.routes`. -/
def TrieNode.routes : TrieNode → List Nat
  | .mk rs _ => rs

/-- `tn.children`, as a `List`. -/
def TrieNode.childrenL : TrieNode → List (Str × TrieNode)
  | .mk _ cs => cs.toList

/-- The empty trie (`trieNode{}`, the zero value). -/
def emptyTrie : TrieNode := .mk [] .nil

/-- Out-of-range child accesses (which never happen on the taken paths)
default to an empty edge on an empty node. -/
def dummyChild : Str × TrieNode := ([], emptyTrie)

/-- The first byte of a child's edge label (`children[i].prefix[0]`). -/
def fbOf (c : Str × TrieNode) : Nat := c.1.headD 0

mutual
/-- `add`'s empty-prefix case: append `idx` to this node's route list and
recursively to every node of the subtree. -/
def TrieNode.appendAll : TrieNode → Nat → TrieNode
  | .mk rs cs, idx => .mk (rs ++ [idx]) (cs.appendAllC idx)
def ChildList.appendAllC : ChildList → Nat → ChildList
  | .nil, _ => .nil
  | .cons p t rest, idx => .cons p (t.appendAll idx) (rest.appendAllC idx)
end

mutual
/-- `trieNode.clone`: deep copy. -/
def TrieNode.clone : TrieNode → TrieNode
  | .mk rs cs => .mk rs cs.cloneC
def ChildList.cloneC : ChildList → ChildList
  | .nil => .nil
  | .cons p t rest => .cons p t.clone rest.cloneC
end

mutual
/-- All route indices stored anywhere in the trie (with multiplicity;
only membership is used). -/
def TrieNode.idxList : TrieNode → List Nat
  | .mk rs cs => rs ++ cs.idxListC
def ChildList.idxListC : ChildList → List Nat
  | .nil => []
  | .cons _ t rest => t.idxList ++ rest.idxListC
end

/-- Sorted insertion by edge label (see module comment on `sort.Sort`). -/
def insertChild (c : Str × TrieNode) : List (Str × TrieNode) → List (Str × TrieNode)
  | [] => [c]
  | d :: ds => if strLt c.1 d.1 then c :: d :: ds else d :: insertChild c ds

/-- `sort.Sort(byPrefix(tn.children))`. -/
def sortChildren : List (Str × TrieNode) → List (Str × TrieNode)
  | [] => []
  | c :: cs => insertChild c (sortChildren cs)

/-- The `sort.Search` call shared by the walk and by `add`: the index of the
first child whose edge's first byte is `≥ ch`. -/
def childSearch (l : List (Str × TrieNode)) (ch : Nat) : Nat :=
  sortSearch l.length (fun j => decide (ch ≤ fbOf (l.getD j dummyChild)))

/-- The descent loop of `router.Route`: binary-search the children by the
next input byte; descend while the found edge is a literal prefix of the
remaining path. -/
def walkF : Nat → TrieNode → Str → TrieNode
  | _, t, [] => t
  | 0, t, _ :: _ => t
  | fuel + 1, t, c :: rest =>
    let cs := t.childrenL
    let i := childSearch cs c
    let e := cs.getD i dummyChild
    if i < cs.length ∧ e.1 ≠ [] ∧ e.1 <+: (c :: rest) then
      walkF fuel e.2 ((c :: rest).drop e.1.length)
    else t

/-- The trie walk of `router.Route` (see `walkF`). -/
def walk (t : TrieNode) (path : Str) : TrieNode := walkF path.length t path

/-- `trieNode.add(prefix, idx)`. -/
def addF : Nat → TrieNode → Str → Nat → TrieNode
  | _, t, [], idx => t.appendAll idx
  | 0, t, _ :: _, _ => t
  | fuel + 1, .mk rs csl, ch :: rest, idx =>
    let cs := csl.toList
    let i := childSearch cs ch
    if i = cs.length ∨ ch ≠ fbOf (cs.getD i dummyChild) then
      .mk rs (ChildList.ofList (sortChildren (cs ++ [(ch :: rest, .mk (rs ++ [idx]) .nil)])))
    else
      let c := cs.getD i dummyChild
      let lp := longestCommon (ch :: rest) c.1
      if c.1 = lp then
        .mk rs (ChildList.ofList (cs.set i (c.1, addF fuel c.2 ((ch :: rest).drop lp.length) idx)))
      else
        let split0 : TrieNode := .mk rs (.cons (c.1.drop lp.length) c.2 .nil)
        .mk rs (ChildList.ofList (sortChildren
          (cs.set i (lp, addF fuel split0 ((ch :: rest).drop lp.length) idx))))

/-- `trieNode.add` (see `addF`). -/
def add (t : TrieNode) (p : Str) (idx : Nat) : TrieNode := addF p.length t p idx

/-- The trie obtained by a sequence of insertions into the zero-value node. -/
def buildTrie (ps : List (Str × Nat)) : TrieNode :=
  ps.foldl (fun t pi => add t pi.1 pi.2) emptyTrie

/-- Structural invariant of every trie the router builds: children carry
nonempty edge labels with strictly increasing first bytes, recursively. -/
inductive StructInv : TrieNode → Prop where
  | mk (rs : List Nat) (cs : ChildList)
      (hne : ∀ c ∈ cs.toList, c.1 ≠ [])
      (hsorted : cs.toList.Pairwise (fun a b => fbOf a < fbOf b))
      (hrec : ∀ c ∈ cs.toList, StructInv c.2) : StructInv (.mk rs cs)

/-! ## The router (router source: `route`, `match`, `router.Handle`, `router.Route`,
`simpleRouter`; part_001: `Mux.ServeHTTP`) -/

/-- The `Matcher` capability: `Match`, `Methods` (`none` = unknown /
unrestricted), `Prefix`. -/
structure MatcherS where
  matchFn : Request → Option Request
  methodsOf : Option (List Str)
  pfx : Str

/-- A registered route: its matcher and its handler's identity. -/
structure RRoute where
  matcher : MatcherS
  handler : Nat

/-- The `router` struct: the ordered route list, the per-method tries, and
the wildcard trie. -/
structure GoRouter where
  routes : List RRoute
  methods : List (Str × TrieNode)
  wildcard : TrieNode

/-- The zero-value `router{}`. -/
def emptyRouter : GoRouter := { routes := [], methods := [], wildcard := emptyTrie }

/-- The method-set loop in the restricted branch of `router.Handle`:
for each `m ∈ ms`, seed a missing per-method trie with a clone of the
current wildcard trie, then insert `(pfx, i)` into it.  (Go iterates a
`map[string]struct{}`, so `ms` has no duplicates — the theorems assume
`ms.Nodup` — and iteration order is irrelevant because distinct methods
touch distinct entries.) -/
def handleMethods (wc : TrieNode) (pfx : Str) (i : Nat) (ms : List Str)
    (acc : List (Str × TrieNode)) : List (Str × TrieNode) :=
  ms.foldl (fun acc m =>
    match lookupAssoc acc m with
    | none => setAssoc acc m (add wc.clone pfx i)
    | some t => setAssoc acc m (add t pfx i)) acc

/-- `router.Handle(matcher, handler)`. -/
def handleR (r : GoRouter) (m : MatcherS) (h : Nat) : GoRouter :=
  let i := r.routes.length
  let routes := r.routes ++ [{ matcher := m, handler := h }]
  match m.methodsOf with
  | none =>
    { routes := routes
      methods := r.methods.map (fun kt => (kt.1, add kt.2 m.pfx i))
      wildcard := add r.wildcard m.pfx i }
  | some ms =>
    { routes := routes
      methods := handleMethods r.wildcard m.pfx i ms r.methods
      wildcard := r.wildcard }

/-- Build a router by registering the given (matcher, handler) pairs in
order. -/
def buildRouter (rs : List (MatcherS × Nat)) : GoRouter :=
  rs.foldl (fun r mh => handleR r mh.1 mh.2) emptyRouter

/-- The candidate loop of `router.Route`: try each candidate index in
order; the first matcher returning non-nil wins and the result is wrapped
in the `match` overlay recording the winning route (see `Ctx.matchOverlay`).
`none` means no candidate matched.  (A candidate index out of range would
make Go panic on `r.routes[i]`; the router never stores such an index, and
the model skips it.) -/
def firstMatch (routes : List RRoute) (req : Request) : List Nat → Option Request
  | [] => none
  | i :: rest =>
    match routes.get? i with
    | some rt =>
      match rt.matcher.matchFn req with
      | some req2 => some { req2 with ctx := .matchOverlay req2.ctx (some i) (some rt.handler) }
      | none => firstMatch routes req rest
    | none => firstMatch routes req rest

/-- `router.Route(req)`.  The outer `Option` models the unchecked type
assertion `ctx.Value(pathKey).(string)`: `none` is a panic (no string bound
under `pathKey`); otherwise dispatch always produces a request. -/
def routeR (r : GoRouter) (req : Request) : Option Request :=
  let tn := match lookupAssoc r.methods req.method with
    | some t => t
    | none => r.wildcard
  match ctxValueP req.ctx .pathKey with
  | some (.vstr path) =>
    some (match firstMatch r.routes req (walk tn path).routes with
      | some req2 => req2
      | none => { req with ctx := .matchOverlay req.ctx none none })
  | _ => none

/-- `simpleRouter.Route(req)` (the reference implementation from the tests):
scan the routes in registration order, first non-nil `Match` wins.  `pos` is
the registration index of the head route (0 at the top call), recorded in
the overlay exactly as `routeR` records the winning index. -/
def simpleRouteAux (pos : Nat) (req : Request) : List RRoute → Request
  | [] => { req with ctx := .matchOverlay req.ctx none none }
  | rt :: rest =>
    match rt.matcher.matchFn req with
    | some req2 => { req2 with ctx := .matchOverlay req2.ctx (some pos) (some rt.handler) }
    | none => simpleRouteAux (pos + 1) req rest

/-- `simpleRouter.Route(req)`. -/
def simpleRoute (routes : List RRoute) (req : Request) : Request :=
  simpleRouteAux 0 req routes

/-- The `Mux` (part_001), reduced to what dispatch needs: its router and
the sub-mux flag. -/
structure Mux where
  router : GoRouter
  sub : Bool

/-- The routing part of `Mux.ServeHTTP`: a top-level mux binds `pathKey` to
the URL's escaped path before dispatching; a sub-mux dispatches the request
unchanged. -/
def muxRoute (m : Mux) (req : Request) : Option Request :=
  if m.sub then routeR m.router req
  else routeR m.router
    { req with ctx := .withValue req.ctx .pathKey (.vstr req.urlPath) }

/-! ## Support lemmas for the pattern claims -/

theorem insertSpec_length (x : Str × Nat) (l : List (Str × Nat)) :
    (insertSpec x l).length = l.length + 1 := by
  induction l with
  | nil => rfl
  | cons y ys ih =>
    simp only [insertSpec]
    by_cases h : strLt x.1 y.1
    · simp [h]
    · simp [h, ih]

theorem sortSpecs_length (l : List (Str × Nat)) : (sortSpecs l).length = l.length := by
  induction l with
  | nil => rfl
  | cons x xs ih => simp [sortSpecs, insertSpec_length, ih]

theorem buildParts_lengths (pat : Str) (ms : List (Nat × Nat)) :
    ∀ i n, (buildParts pat ms i n).1.length = ms.length
      ∧ (buildParts pat ms i n).2.1.length = ms.length
      ∧ (buildParts pat ms i n).2.2.1.length = ms.length := by
  induction ms with
  | nil => intro i n; simp [buildParts]
  | cons m rest ih =>
    intro i n
    obtain ⟨a, b⟩ := m
    have := ih (i + 1) b
    simp [buildParts, this]

/-- The processed pattern text: `"/*"` patterns lose the trailing `*`. -/
def procPat (pat0 : Str) : Str := if hasSuffixSlashStar pat0 then pat0.dropLast else pat0

theorem New_unfold (pat0 : Str) (ms : Option (List Str)) :
    New pat0 ms =
      { raw := pat0
        methods := ms
        specs := sortSpecs (buildParts (procPat pat0) (findMatches (procPat pat0)) 0 0).2.1
        breaks := (buildParts (procPat pat0) (findMatches (procPat pat0)) 0 0).2.2.1
        literals := (buildParts (procPat pat0) (findMatches (procPat pat0)) 0 0).1
          ++ [(procPat pat0).drop (buildParts (procPat pat0) (findMatches (procPat pat0)) 0 0).2.2.2]
        wildcard := hasSuffixSlashStar pat0 } := rfl

theorem New_breaks_length (pat : Str) (ms : Option (List Str)) :
    (New pat ms).breaks.length = (New pat ms).specs.length := by
  rw [New_unfold]
  simp only [sortSpecs_length]
  rw [(buildParts_lengths _ _ 0 0).2.1, (buildParts_lengths _ _ 0 0).2.2]

theorem New_specs_nil (pat : Str) (ms : Option (List Str)) (h : (New pat ms).specs = []) :
    (New pat ms).breaks = [] ∧ (New pat ms).literals = [procPat pat] := by
  have hlen : (New pat ms).specs.length = 0 := by rw [h]; rfl
  rw [New_unfold] at hlen
  simp only [sortSpecs_length] at hlen
  rw [(buildParts_lengths _ _ 0 0).2.1] at hlen
  have hms : findMatches (procPat pat) = [] := List.length_eq_zero.mp hlen
  constructor
  · rw [New_unfold]
    simp [hms, buildParts]
  · rw [New_unfold]
    simp [hms, buildParts]

theorem matchCaps_length (bcs : List Nat) (lits : List Str) (path : Str) (x : List Str × Str)
    (h : matchCaps bcs lits path = some x) : x.1.length = bcs.length := by
  induction bcs generalizing lits path x with
  | nil => simp [matchCaps] at h; simp [← h]
  | cons bc bcs ih =>
    cases lits with
    | nil => simp [matchCaps] at h
    | cons lit lits =>
      simp only [matchCaps] at h
      by_cases hp : lit <+: path
      · rw [if_pos hp] at h
        by_cases hm : breakIdx bc (path.drop lit.length) = 0
        · rw [if_pos hm] at h; exact absurd h (by simp)
        · rw [if_neg hm] at h
          cases hr : matchCaps bcs lits ((path.drop lit.length).drop (breakIdx bc (path.drop lit.length))) with
          | none => rw [hr] at h; exact absurd h (by simp)
          | some y =>
            rw [hr] at h
            have := ih lits _ y hr
            simp at h
            simp [← h, this]
      · rw [if_neg hp] at h; exact absurd h (by simp)

theorem unescapeFirst_length (k : Nat) (l l2 : List Str)
    (h : unescapeFirst k l = some l2) : l2.length = l.length := by
  induction k generalizing l l2 with
  | zero => simp [unescapeFirst] at h; simp [← h]
  | succ k ih =>
    cases l with
    | nil => simp [unescapeFirst] at h; simp [← h]
    | cons s rest =>
      simp only [unescapeFirst] at h
      cases hu : unescape s with
      | none => rw [hu] at h; exact absurd h (by simp)
      | some s2 =>
        rw [hu] at h
        cases hr : unescapeFirst k rest with
        | none => rw [hr] at h; exact absurd h (by simp)
        | some rest2 =>
          rw [hr] at h
          simp at h
          have := ih rest rest2 hr
          simp [← h, this]

/-- Unfolding characterization of a successful `Match`. -/
theorem specMatch_some (p : SpecMatcher) (req req2 : Request) :
    specMatch p req = some req2 ↔
      methodBlocked p req.method = false
      ∧ ∃ scratch scratch2,
          matchRawFull p (pathOfD req.ctx) = some scratch
          ∧ unescapeFirst p.specs.length scratch = some scratch2
          ∧ req2 = { req with ctx := .matchCtx req.ctx p scratch2 } := by
  rw [specMatch]
  by_cases hmb : methodBlocked p req.method
  · rw [if_pos (by simp [hmb])]
    simp [hmb]
  · rw [if_neg (by simp [hmb])]
    cases hraw : matchRawFull p (pathOfD req.ctx) with
    | none => simp [hmb, hraw]
    | some scratch =>
      cases hu : unescapeFirst p.specs.length scratch with
      | none => simp [hmb, hraw, hu]
      | some scratch2 =>
        simp only [Bool.not_eq_true] at hmb
        simp [hmb, hraw, hu, eq_comm]

/-! ## Claims C4–C7: the pattern matcher -/

theorem breakIdx_take_eq (bc : Nat) (s : Str) :
    s.take (breakIdx bc s) = s.takeWhile (fun c => !(c == bc || c == slByte)) := by
  induction s with
  | nil => rfl
  | cons c rest ih =>
    simp only [breakIdx]
    by_cases h : c = bc ∨ c = slByte
    · rw [if_pos h]
      have : (!(c == bc || c == slByte)) = false := by
        rcases h with h | h <;> simp [h]
      simp [List.takeWhile, this]
    · rw [if_neg h]
      push_neg at h
      have : (!(c == bc || c == slByte)) = true := by
        simp [h.1, h.2]
      simp [List.takeWhile, this, ih]

/-- C4: for every compiled pattern and path, each raw capture is the span of
the remaining path — after the preceding literal is stripped — up to the
first occurrence of that capture's break byte or `/`, whichever comes first
(the scanning loop computes exactly the maximal break-free prefix); an empty
span fails the match, so `"/:name"` does not match `"/"`; and a later break
byte is included in an earlier span when allowed: `"/:file.:ext"` on
`"/data.tar.gz"` binds `file = "data"` and `ext = "tar.gz"`. -/
theorem C4_capture_spans :
    (∀ (bc : Nat) (s : Str),
        s.take (breakIdx bc s) = s.takeWhile (fun c => !(c == bc || c == slByte)))
  ∧ (∀ (bc : Nat) (bcs : List Nat) (lit : Str) (lits : List Str) (path : Str),
        lit <+: path → breakIdx bc (path.drop lit.length) = 0 →
        matchCaps (bc :: bcs) (lit :: lits) path = none)
  ∧ specMatch (New (str "/:name") none) (mkReq (str "GET") (str "/")) = none
  ∧ ((specMatch (New (str "/:file.:ext") none) (mkReq (str "GET") (str "/data.tar.gz"))).map
        (fun r => (ctxValueP r.ctx (.name (str "file")), ctxValueP r.ctx (.name (str "ext"))))
      = some (some (.vstr (str "data")), some (.vstr (str "tar.gz")))) := by
  refine ⟨breakIdx_take_eq, ?_, by decide, by decide⟩
  intro bc bcs lit lits path hpfx hzero
  simp [matchCaps, hpfx, hzero]

theorem C4_capture_spans_witness :
    (str "/" <+: str "/")
    ∧ breakIdx slByte ((str "/").drop (str "/").length) = 0
    ∧ matchCaps [slByte] [str "/"] (str "/") = none :=
  ⟨by decide, by decide,
    C4_capture_spans.2.1 slByte [] (str "/") [] (str "/") (by decide) (by decide)⟩

/-- C5: a wildcard pattern (text ending in `"/*"`, no captures) matches
exactly the paths having the pattern text minus the `*` as a literal prefix,
and exposes the unmatched remainder, including its leading separator byte,
as the remaining path; a non-wildcard pattern leaves the remaining path
empty.  Concretely, `"/users/*"` matches `"/users/"` with remainder `"/"`
and `"/users/carl"` with remainder `"/carl"`, and does not match
`"/users"`. -/
theorem C5_wildcard_matching :
    (∀ (pat0 path m : Str),
        (New pat0 none).specs = [] → (New pat0 none).wildcard = true →
        (((specMatch (New pat0 none) (mkReq m path)).isSome ↔ pat0.dropLast <+: path)
          ∧ (∀ req2, specMatch (New pat0 none) (mkReq m path) = some req2 →
              ctxValueP req2.ctx .pathKey
                = some (.vstr (path.drop (pat0.dropLast.length - 1))))))
  ∧ (∀ (pat0 : Str) (ms : Option (List Str)) (req req2 : Request),
        (New pat0 ms).wildcard = false →
        specMatch (New pat0 ms) req = some req2 →
        ctxValueP req2.ctx .pathKey = some (.vstr []))
  ∧ ((specMatch (New (str "/users/*") none) (mkReq (str "GET") (str "/users/"))).map
        (fun r => ctxValueP r.ctx .pathKey) = some (some (.vstr (str "/"))))
  ∧ ((specMatch (New (str "/users/*") none) (mkReq (str "GET") (str "/users/carl"))).map
        (fun r => ctxValueP r.ctx .pathKey) = some (some (.vstr (str "/carl"))))
  ∧ specMatch (New (str "/users/*") none) (mkReq (str "GET") (str "/users")) = none := by
  refine ⟨?_, ?_, by decide, by decide, by decide⟩
  · intro pat0 path m hspecs hw
    have hproc : procPat pat0 = pat0.dropLast := by
      rw [New_unfold] at hw
      simp only at hw
      simp [procPat, hw]
    obtain ⟨hbreaks, hlits⟩ := New_specs_nil pat0 none hspecs
    have hpath : pathOfD (mkReq m path).ctx = path := by
      simp [mkReq, pathOfD, ctxValueP]
    constructor
    · rw [specMatch]
      have hmb : methodBlocked (New pat0 none) (mkReq m path).method = false := by
        simp [methodBlocked, New_unfold]
      rw [if_neg (by simp [hmb])]
      rw [hpath]
      rw [matchRawFull, hbreaks, hlits]
      simp only [List.take_nil, List.length_nil]
      by_cases hp : procPat pat0 <+: path
      · rw [hproc] at hp
        simp [matchCaps, hw, hproc, hp, unescapeFirst, hspecs]
      · rw [hproc] at hp
        simp [matchCaps, hw, hproc, hp, unescapeFirst, hspecs]
    · intro req2 hm
      rw [specMatch] at hm
      have hmb : methodBlocked (New pat0 none) (mkReq m path).method = false := by
        simp [methodBlocked, New_unfold]
      rw [if_neg (by simp [hmb])] at hm
      rw [hpath, matchRawFull, hbreaks, hlits] at hm
      simp only [List.take_nil, List.length_nil] at hm
      by_cases hp : procPat pat0 <+: path
      · rw [matchCaps] at hm
        rw [hw] at hm
        simp only [if_true] at hm
        rw [hproc] at hp
        simp [hproc, hp, hspecs, unescapeFirst] at hm
        rw [← hm]
        simp [ctxValueP, hspecs, hproc]
      · rw [matchCaps] at hm
        rw [hw] at hm
        rw [hproc] at hp
        simp [hproc, hp] at hm
  · intro pat0 ms req req2 hw hm
    rw [specMatch_some] at hm
    obtain ⟨hmb, scratch, scratch2, hraw, hu, hreq2⟩ := hm
    have hlen2 : scratch2.length = scratch.length :=
      unescapeFirst_length _ _ _ hu
    have hlen1 : scratch.length = (New pat0 ms).breaks.length := by
      rw [matchRawFull] at hraw
      cases hc : matchCaps (New pat0 ms).breaks
          ((New pat0 ms).literals.take (New pat0 ms).breaks.length) (pathOfD req.ctx) with
      | none => rw [hc] at hraw; exact absurd hraw (by simp)
      | some x =>
        rw [hc] at hraw
        rw [hw] at hraw
        simp only [Bool.false_eq_true, if_false] at hraw
        by_cases ht : x.2 = (New pat0 ms).literals.getD (New pat0 ms).breaks.length []
        · rw [if_pos ht] at hraw
          simp at hraw
          rw [← hraw]
          exact matchCaps_length _ _ _ _ hc
        · rw [if_neg ht] at hraw; exact absurd hraw (by simp)
    rw [hreq2]
    simp only [ctxValueP]
    have hne : scratch2.length ≠ (New pat0 ms).specs.length + 1 := by
      rw [hlen2, hlen1, New_breaks_length]
      omega
    rw [if_neg (by simp [hne])]

theorem C5_wildcard_matching_witness :
    ((New (str "/users/*") none).specs = [])
    ∧ ((New (str "/users/*") none).wildcard = true)
    ∧ ((specMatch (New (str "/users/*") none) (mkReq (str "GET") (str "/users/carl"))).isSome
        ↔ (str "/users/*").dropLast <+: str "/users/carl") :=
  ⟨by decide, by decide,
    (C5_wildcard_matching.1 (str "/users/*") (str "/users/carl") (str "GET")
      (by decide) (by decide)).1⟩

theorem matchRawFull_congr (p q : SpecMatcher) (hb : p.breaks = q.breaks)
    (hl : p.literals = q.literals) (hw : p.wildcard = q.wildcard) (path : Str) :
    matchRawFull p path = matchRawFull q path := by
  rw [matchRawFull, matchRawFull, hb, hl, hw]

theorem specMatch_isSome (p : SpecMatcher) (req : Request) :
    (specMatch p req).isSome =
      (!methodBlocked p req.method
        && (match matchRawFull p (pathOfD req.ctx) with
            | none => false
            | some scratch => (unescapeFirst p.specs.length scratch).isSome)) := by
  rw [specMatch]
  by_cases hmb : methodBlocked p req.method
  · simp [hmb]
  · simp only [Bool.not_eq_true] at hmb
    rw [if_neg (by simp [hmb]), hmb]
    cases hr : matchRawFull p (pathOfD req.ctx) with
    | none => simp
    | some scratch =>
      cases hu : unescapeFirst p.specs.length scratch with
      | none => simp [hu]
      | some s2 => simp [hu]

theorem specMatch_isSome_congr (p q : SpecMatcher) (req1 req2 : Request)
    (hmb1 : methodBlocked p req1.method = false)
    (hmb2 : methodBlocked q req2.method = false)
    (hctx : req1.ctx = req2.ctx)
    (hb : p.breaks = q.breaks) (hl : p.literals = q.literals)
    (hw : p.wildcard = q.wildcard) (hsl : p.specs.length = q.specs.length) :
    (specMatch p req1).isSome = (specMatch q req2).isSome := by
  rw [specMatch_isSome, specMatch_isSome, hmb1, hmb2, hctx,
    matchRawFull_congr p q hb hl hw, hsl]

/-- C6: a GET-restricted pattern also matches HEAD (for GET and HEAD
requests it matches exactly as the unrestricted pattern does), a
`{POST, PUT}`-restricted pattern never matches a GET request regardless of
path, and an unrestricted pattern has the unknown method set and never fails
on account of the request method. -/
theorem C6_method_semantics :
    (∀ (pat : Str) (req : Request),
        req.method = str "GET" ∨ req.method = str "HEAD" →
        (specMatch (GetP pat) req).isSome = (specMatch (New pat none) req).isSome)
  ∧ (∀ (pat : Str) (req : Request), req.method = str "GET" →
        specMatch (New pat (some [str "POST", str "PUT"])) req = none)
  ∧ (∀ pat : Str, (New pat none).methods = none)
  ∧ (∀ (pat : Str) (req : Request) (m1 m2 : Str),
        (specMatch (New pat none) { req with method := m1 }).isSome
          = (specMatch (New pat none) { req with method := m2 }).isSome) := by
  refine ⟨?_, ?_, fun _ => rfl, ?_⟩
  · intro pat req hm
    refine specMatch_isSome_congr _ _ _ _ ?_ rfl rfl rfl rfl rfl rfl
    rcases hm with h | h <;> rw [h]
    · show (! ([str "GET", str "HEAD"].contains (str "GET"))) = false
      decide
    · show (! ([str "GET", str "HEAD"].contains (str "HEAD"))) = false
      decide
  · intro pat req hm
    rw [specMatch, if_pos]
    rw [hm]
    show (! ([str "POST", str "PUT"].contains (str "GET"))) = true
    decide
  · intro pat req m1 m2
    exact specMatch_isSome_congr _ _ _ _ rfl rfl rfl rfl rfl rfl rfl

theorem C6_method_semantics_witness :
    ((mkReq (str "HEAD") (str "/boo")).method = str "GET"
        ∨ (mkReq (str "HEAD") (str "/boo")).method = str "HEAD")
    ∧ (specMatch (GetP (str "/boo")) (mkReq (str "HEAD") (str "/boo"))).isSome
        = (specMatch (New (str "/boo") none) (mkReq (str "HEAD") (str "/boo"))).isSome
    ∧ specMatch (New (str "/boo") (some [str "POST", str "PUT"]))
        (mkReq (str "GET") (str "/boo")) = none :=
  ⟨Or.inr rfl,
    C6_method_semantics.1 (str "/boo") (mkReq (str "HEAD") (str "/boo")) (Or.inr rfl),
    C6_method_semantics.2.1 (str "/boo") (mkReq (str "GET") (str "/boo")) rfl⟩

/-- C7: when the structural phase of `Match` succeeds but percent-decoding a
raw capture span fails, `Match` returns the no-match result `nil` — exactly
the result of a structural mismatch, with the request left unenriched; the
`Match` interface exposes no error value at all (its result type is only a
request or `nil`).  Concretely, `"/:name"` against `"/%nope"` passes the
structural phase with raw capture `"%nope"`, whose decoding fails, and
`Match` returns `nil`. -/
theorem C7_decode_failure_silent :
    (∀ (p : SpecMatcher) (req : Request) (scratch : List Str),
        methodBlocked p req.method = false →
        matchRawFull p (pathOfD req.ctx) = some scratch →
        unescapeFirst p.specs.length scratch = none →
        specMatch p req = none)
  ∧ matchRawFull (New (str "/:name") none) (str "/%nope") = some [str "%nope"]
  ∧ unescapeFirst (New (str "/:name") none).specs.length [str "%nope"] = none
  ∧ specMatch (New (str "/:name") none) (mkReq (str "GET") (str "/%nope")) = none := by
  refine ⟨?_, by decide, by decide, by decide⟩
  intro p req scratch hmb hraw hu
  rw [specMatch, if_neg (by simp [hmb]), hraw]
  simp [hu]

theorem C7_decode_failure_silent_witness :
    methodBlocked (New (str "/:name") none) (mkReq (str "GET") (str "/%nope")).method = false
    ∧ matchRawFull (New (str "/:name") none) (pathOfD (mkReq (str "GET") (str "/%nope")).ctx)
        = some [str "%nope"]
    ∧ unescapeFirst (New (str "/:name") none).specs.length [str "%nope"] = none
    ∧ specMatch (New (str "/:name") none) (mkReq (str "GET") (str "/%nope")) = none :=
  ⟨by decide, by decide, by decide,
    C7_decode_failure_silent.1 (New (str "/:name") none) (mkReq (str "GET") (str "/%nope"))
      [str "%nope"] (by decide) (by decide) (by decide)⟩

/-! ## Claims C8–C10: overlay frame, empty router, the bound-path precondition -/

/-- C8 counterexample: the claim is false as stated.  With a parent context
that already contains an all-names binding map (here binding `c = "nope"`),
reading `allNames` through the match-enriched context mutates that very map
in place: afterwards the parent's observable binding for `c` is the
overlay's value `"foo"`, no longer `"nope"`. -/
theorem C8_overlay_read_mutates_counterexample :
    let h0 : Heap := [[(str "c", str "nope")]]
    let parent : Ctx := .withAllNames .background 0
    let enr : Ctx := .matchCtx parent (New (str "/:c") none) [str "foo"]
    lookupAssoc (h0.getD 0 []) (str "c") = some (str "nope")
    ∧ valueAllNames parent h0 = (some 0, h0)
    ∧ (valueAllNames enr h0).1 = some 0
    ∧ lookupAssoc (((valueAllNames enr h0).2).getD 0 []) (str "c") = some (str "foo") := by
  decide

/-- C8 (amended): reading the aggregate all-names value from a
match-enriched context leaves every earlier overlay's observable bindings
unchanged precisely when the parent chain contains no all-names binding map
(the read then only allocates a fresh map); when the parent chain does
contain one, the read merges the overlay's bindings into that existing map
in place. -/
theorem C8_overlay_read_frame :
    (∀ (p : Ctx) (sp : SpecMatcher) (mts : List Str) (h : Heap),
        (valueAllNames p h).1 = none →
        ∀ r, r < h.length →
          ((valueAllNames (.matchCtx p sp mts) h).2).getD r [] = h.getD r [])
  ∧ (∀ (p : Ctx) (sp : SpecMatcher) (mts : List Str) (h : Heap) (r : Nat) (h1 : Heap),
        valueAllNames p h = (some r, h1) →
        valueAllNames (.matchCtx p sp mts) h
          = (some r, h1.set r (setEntries (h1.getD r []) sp.specs mts))) := by
  constructor
  · intro p sp mts h hnone r hr
    have hheap := valueAllNames_none_heap p h hnone
    rcases hva : valueAllNames p h with ⟨r?, h1⟩
    rw [hva] at hnone hheap
    simp only at hnone hheap
    subst hnone
    subst hheap
    simp only [valueAllNames, hva]
    by_cases hz : sp.specs.length = 0
    · simp [hz]
    · rw [if_neg hz]
      simp only
      rw [List.getD_eq_getElem?_getD, List.getD_eq_getElem?_getD,
        List.getElem?_append_left hr]
  · intro p sp mts h r h1 hva
    simp [valueAllNames, hva]

theorem C8_overlay_read_frame_witness :
    ((valueAllNames Ctx.background [[]]).1 = none)
    ∧ (((valueAllNames (.matchCtx .background (New (str "/:c") none) [str "foo"]) [[]]).2).getD 0 []
        = ([[]] : Heap).getD 0 []) :=
  ⟨rfl, C8_overlay_read_frame.1 .background (New (str "/:c") none) [str "foo"] [[]]
    rfl 0 (by decide)⟩

theorem walk_emptyTrie (path : Str) : walk emptyTrie path = emptyTrie := by
  cases path with
  | nil => rfl
  | cons c rest => rfl

/-- C9: dispatching any request with a bound path through a router with no
registered routes returns a well-formed unmatched result and never panics:
the result resolves the matcher and handler keys to nothing, and every other
key — including the `allNames` aggregate — resolves exactly as in the
original request's context. -/
theorem C9_empty_router_unmatched (req : Request) (path : Str)
    (hpath : ctxValueP req.ctx .pathKey = some (.vstr path)) :
    ∃ req2, routeR emptyRouter req = some req2
      ∧ ctxValueP req2.ctx .matcherKey = none
      ∧ ctxValueP req2.ctx .handlerKey = none
      ∧ (∀ k, k ≠ Key.matcherKey → k ≠ Key.handlerKey →
          ctxValueP req2.ctx k = ctxValueP req.ctx k)
      ∧ (∀ h, valueAllNames req2.ctx h = valueAllNames req.ctx h) := by
  refine ⟨{ req with ctx := .matchOverlay req.ctx none none }, ?_, rfl, rfl, ?_, fun _ => rfl⟩
  · rw [routeR]
    simp only [emptyRouter, lookupAssoc, hpath, walk_emptyTrie]
    rfl
  · intro k hk1 hk2
    cases k with
    | matcherKey => exact absurd rfl hk1
    | handlerKey => exact absurd rfl hk2
    | pathKey => rfl
    | name s => rfl

theorem C9_empty_router_unmatched_witness :
    ctxValueP (mkReq (str "GET") (str "/")).ctx .pathKey = some (.vstr (str "/"))
    ∧ ∃ req2, routeR emptyRouter (mkReq (str "GET") (str "/")) = some req2
        ∧ ctxValueP req2.ctx .matcherKey = none
        ∧ ctxValueP req2.ctx .handlerKey = none
        ∧ (∀ k, k ≠ Key.matcherKey → k ≠ Key.handlerKey →
            ctxValueP req2.ctx k = ctxValueP (mkReq (str "GET") (str "/")).ctx k)
        ∧ (∀ h, valueAllNames req2.ctx h
            = valueAllNames (mkReq (str "GET") (str "/")).ctx h) :=
  ⟨rfl, C9_empty_router_unmatched (mkReq (str "GET") (str "/")) (str "/") rfl⟩

/-- C10: `router.Route` reads the bound path with an unchecked type
assertion, so dispatching a request whose context has no string bound under
`pathKey` panics (modelled as `none`) instead of returning an unmatched
result, while a bound path makes dispatch total; the top-level `Mux` binds
the escaped URL path before dispatching and therefore never panics, whereas
a sub-`Mux` dispatches the request unchanged and panics whenever the path
was not already bound. -/
theorem C10_dispatch_requires_bound_path :
    (∀ (r : GoRouter) (req : Request),
        (∀ s : Str, ctxValueP req.ctx .pathKey ≠ some (.vstr s)) → routeR r req = none)
  ∧ (∀ (r : GoRouter) (req : Request) (path : Str),
        ctxValueP req.ctx .pathKey = some (.vstr path) → (routeR r req).isSome = true)
  ∧ (∀ (rtr : GoRouter) (req : Request),
        (muxRoute { router := rtr, sub := false } req).isSome = true)
  ∧ (∀ (rtr : GoRouter) (req : Request),
        (∀ s : Str, ctxValueP req.ctx .pathKey ≠ some (.vstr s)) →
        muxRoute { router := rtr, sub := true } req = none) := by
  have h1 : ∀ (r : GoRouter) (req : Request),
      (∀ s : Str, ctxValueP req.ctx .pathKey ≠ some (.vstr s)) → routeR r req = none := by
    intro r req hno
    rw [routeR]
    cases hv : ctxValueP req.ctx .pathKey with
    | none => rfl
    | some v =>
      cases v with
      | vstr s => exact absurd hv (hno s)
      | vnat n => rfl
  have h2 : ∀ (r : GoRouter) (req : Request) (path : Str),
      ctxValueP req.ctx .pathKey = some (.vstr path) → (routeR r req).isSome = true := by
    intro r req path hpath
    rw [routeR, hpath]
    simp
  refine ⟨h1, h2, ?_, ?_⟩
  · intro rtr req
    refine h2 rtr { req with ctx := .withValue req.ctx .pathKey (.vstr req.urlPath) }
      req.urlPath ?_
    show ctxValueP (.withValue req.ctx .pathKey (.vstr req.urlPath)) .pathKey
      = some (.vstr req.urlPath)
    simp [ctxValueP]
  · intro rtr req hno
    exact h1 rtr req hno

theorem C10_dispatch_requires_bound_path_witness :
    (∀ s : Str, ctxValueP Ctx.background .pathKey ≠ some (.vstr s))
    ∧ routeR emptyRouter { method := str "GET", ctx := .background, urlPath := str "/" } = none
    ∧ (routeR emptyRouter (mkReq (str "GET") (str "/"))).isSome = true :=
  ⟨fun s => by simp [ctxValueP],
    C10_dispatch_requires_bound_path.1 emptyRouter
      { method := str "GET", ctx := .background, urlPath := str "/" }
      (fun s => by simp [ctxValueP]),
    C10_dispatch_requires_bound_path.2.1 emptyRouter (mkReq (str "GET") (str "/")) (str "/") rfl⟩

/-! ## Trie theory: list and prefix utilities -/

theorem prefix_cancel (l a b : Str) : (l ++ a) <+: (l ++ b) ↔ a <+: b := by
  constructor
  · rintro ⟨t, ht⟩
    rw [List.append_assoc] at ht
    exact ⟨t, List.append_cancel_left ht⟩
  · rintro ⟨t, ht⟩
    exact ⟨t, by rw [List.append_assoc, ht]⟩

theorem longestCommon_spec (a : Str) : ∀ b : Str,
    (longestCommon a b) <+: a ∧ (longestCommon a b) <+: b ∧
      ∀ x xs y ys, a.drop (longestCommon a b).length = x :: xs →
        b.drop (longestCommon a b).length = y :: ys → x ≠ y := by
  induction a with
  | nil =>
    intro b
    refine ⟨List.nil_prefix, List.nil_prefix, ?_⟩
    intro x xs y ys hx hy
    simp [longestCommon] at hx
  | cons c a ih =>
    intro b
    cases b with
    | nil =>
      refine ⟨List.nil_prefix, List.nil_prefix, ?_⟩
      intro x xs y ys hx hy
      simp [longestCommon] at hy
    | cons d b =>
      by_cases hcd : c = d
      · subst hcd
        obtain ⟨h1, h2, h3⟩ := ih b
        refine ⟨?_, ?_, ?_⟩
        · simp only [longestCommon, if_pos rfl]
          exact (List.cons_prefix_cons).mpr ⟨rfl, h1⟩
        · simp only [longestCommon, if_pos rfl]
          exact (List.cons_prefix_cons).mpr ⟨rfl, h2⟩
        · intro x xs y ys hx hy
          simp only [longestCommon, if_pos rfl, List.length_cons, List.drop_succ_cons] at hx hy
          exact h3 x xs y ys hx hy
      · refine ⟨?_, ?_, ?_⟩
        · simp [longestCommon, hcd, List.nil_prefix]
        · simp [longestCommon, hcd, List.nil_prefix]
        · intro x xs y ys hx hy
          simp only [longestCommon, if_neg hcd, List.length_nil, List.drop_zero] at hx hy
          cases hx
          cases hy
          exact hcd

theorem longestCommon_cons (c : Nat) (a b : Str) :
    longestCommon (c :: a) (c :: b) = c :: longestCommon a b := by
  simp [longestCommon]

/-- Comparing two strings with distinct nonempty heads is just comparing the
heads. -/
theorem strLt_head (a b : Str) (ha : a ≠ []) (hb : b ≠ [])
    (hne : a.headD 0 ≠ b.headD 0) : strLt a b = decide (a.headD 0 < b.headD 0) := by
  cases a with
  | nil => exact absurd rfl ha
  | cons x xs =>
    cases b with
    | nil => exact absurd rfl hb
    | cons y ys =>
      simp only [List.headD_cons] at hne ⊢
      rw [strLt]
      rcases Nat.lt_trichotomy x y with h | h | h
      · simp [h]
      · exact absurd h hne
      · rw [if_neg (by omega), if_pos h]
        have hxy : ¬ (x < y) := by omega
        simp [hxy]

theorem insertChild_mem (c x : Str × TrieNode) (l : List (Str × TrieNode)) :
    x ∈ insertChild c l ↔ x = c ∨ x ∈ l := by
  induction l with
  | nil => simp [insertChild]
  | cons d ds ih =>
    simp only [insertChild]
    by_cases h : strLt c.1 d.1
    · rw [if_pos h]
      simp only [List.mem_cons]
      try tauto
    · rw [if_neg h]
      simp only [List.mem_cons, ih]
      try tauto

theorem sortChildren_mem (x : Str × TrieNode) (l : List (Str × TrieNode)) :
    x ∈ sortChildren l ↔ x ∈ l := by
  induction l with
  | nil => simp [sortChildren]
  | cons c cs ih =>
    simp [sortChildren, insertChild_mem, ih, List.mem_cons]

theorem insertChild_sorted (c : Str × TrieNode) (l : List (Str × TrieNode))
    (hc : c.1 ≠ []) (hl : ∀ d ∈ l, d.1 ≠ [])
    (hne : ∀ d ∈ l, fbOf d ≠ fbOf c)
    (hs : l.Pairwise (fun a b => fbOf a < fbOf b)) :
    (insertChild c l).Pairwise (fun a b => fbOf a < fbOf b) := by
  induction l with
  | nil => simp [insertChild]
  | cons d ds ih =>
    have hdc : fbOf d ≠ fbOf c := hne d (by simp)
    have hstr : strLt c.1 d.1 = decide (fbOf c < fbOf d) :=
      strLt_head c.1 d.1 hc (hl d (by simp)) (by simpa [fbOf] using Ne.symm hdc)
    rw [List.pairwise_cons] at hs
    simp only [insertChild]
    by_cases h : fbOf c < fbOf d
    · rw [hstr, if_pos (by simpa using h)]
      refine List.pairwise_cons.mpr ⟨?_, List.pairwise_cons.mpr ⟨hs.1, hs.2⟩⟩
      intro x hx
      rcases List.mem_cons.mp hx with rfl | hx
      · exact h
      · exact lt_trans h (hs.1 x hx)
    · rw [hstr, if_neg (by simpa using h)]
      refine List.pairwise_cons.mpr ⟨?_, ?_⟩
      · intro x hx
        rcases (insertChild_mem c x ds).mp hx with rfl | hx
        · rcases Nat.lt_trichotomy (fbOf d) (fbOf x) with h2 | h2 | h2
          · exact h2
          · exact absurd h2 hdc
          · exact absurd h2 h
        · exact hs.1 x hx
      · exact ih (fun e he => hl e (by simp [he])) (fun e he => hne e (by simp [he])) hs.2

theorem sortChildren_sorted (l : List (Str × TrieNode))
    (hl : ∀ d ∈ l, d.1 ≠ [])
    (hdist : l.Pairwise (fun a b => fbOf a ≠ fbOf b)) :
    (sortChildren l).Pairwise (fun a b => fbOf a < fbOf b) := by
  induction l with
  | nil => simp [sortChildren]
  | cons c cs ih =>
    rw [List.pairwise_cons] at hdist
    refine insertChild_sorted c (sortChildren cs) (hl c (by simp)) ?_ ?_ ?_
    · intro d hd
      exact hl d (by simp [(sortChildren_mem d cs).mp hd])
    · intro d hd
      exact Ne.symm (hdist.1 d ((sortChildren_mem d cs).mp hd))
    · exact ih (fun e he => hl e (by simp [he])) hdist.2

/-! ## Trie theory: structural invariant and the walk -/

theorem structInv_iff (t : TrieNode) :
    StructInv t ↔ (∀ c ∈ t.childrenL, c.1 ≠ [])
      ∧ t.childrenL.Pairwise (fun a b => fbOf a < fbOf b)
      ∧ (∀ c ∈ t.childrenL, StructInv c.2) := by
  constructor
  · intro hs
    cases hs with
    | mk rs cs hne hsorted hrec => exact ⟨hne, hsorted, hrec⟩
  · intro ⟨hne, hsorted, hrec⟩
    cases t with
    | mk rs cs => exact StructInv.mk rs cs hne hsorted hrec

theorem structInv_leaf (rs : List Nat) : StructInv (.mk rs .nil) :=
  StructInv.mk rs .nil (by simp [ChildList.toList]) (by simp [ChildList.toList])
    (by simp [ChildList.toList])

theorem structInv_empty : StructInv emptyTrie := structInv_leaf []

theorem getD_mem {α : Type} (l : List α) (d : α) (i : Nat) (h : i < l.length) :
    l.getD i d ∈ l := by
  rw [List.getD_eq_getElem l d h]
  exact List.getElem_mem h

theorem walkF_succ (fuel : Nat) (t : TrieNode) (c : Nat) (rest : Str) :
    walkF (fuel + 1) t (c :: rest) =
      (if childSearch t.childrenL c < t.childrenL.length
          ∧ (t.childrenL.getD (childSearch t.childrenL c) dummyChild).1 ≠ []
          ∧ (t.childrenL.getD (childSearch t.childrenL c) dummyChild).1 <+: (c :: rest) then
        walkF fuel (t.childrenL.getD (childSearch t.childrenL c) dummyChild).2
          ((c :: rest).drop (t.childrenL.getD (childSearch t.childrenL c) dummyChild).1.length)
      else t) := rfl

theorem walkF_cons_none (fuel : Nat) (t : TrieNode) (c : Nat) (rest : Str)
    (hs : StructInv t) (hnone : ∀ e ∈ t.childrenL, fbOf e ≠ c) :
    walkF (fuel + 1) t (c :: rest) = t := by
  rw [walkF_succ]
  rw [if_neg]
  rintro ⟨hi, hne, hpfx⟩
  set e := t.childrenL.getD (childSearch t.childrenL c) dummyChild with he
  have hmem : e ∈ t.childrenL := getD_mem _ _ _ hi
  cases hE : e.1 with
  | nil => exact hne hE
  | cons x xs =>
    rw [hE] at hpfx
    have := (List.cons_prefix_cons.mp hpfx).1
    have hfb : fbOf e = c := by rw [fbOf, hE, this]; rfl
    exact hnone e hmem hfb

theorem walkF_cons_found (fuel : Nat) (t : TrieNode) (c : Nat) (rest : Str)
    (hs : StructInv t) (j : Nat) (hj : j < t.childrenL.length)
    (hfb : fbOf (t.childrenL.getD j dummyChild) = c) :
    walkF (fuel + 1) t (c :: rest) =
      (if (t.childrenL.getD j dummyChild).1 <+: (c :: rest) then
        walkF fuel (t.childrenL.getD j dummyChild).2
          ((c :: rest).drop (t.childrenL.getD j dummyChild).1.length)
      else t) := by
  obtain ⟨hne, hsorted, hrec⟩ := (structInv_iff t).mp hs
  have hsearch : childSearch t.childrenL c = j := by
    apply sortSearch_eq _ _ j hj
    · intro k hk
      have hklt : k < t.childrenL.length := lt_trans hk hj
      have := List.pairwise_iff_getElem.mp hsorted k j hklt hj hk
      rw [List.getD_eq_getElem _ _ hklt]
      simp only [decide_eq_false_iff_not, not_le]
      rw [List.getD_eq_getElem _ _ hj] at hfb
      omega
    · rw [hfb]
      simp
  rw [walkF_succ, hsearch]
  have hne1 : (t.childrenL.getD j dummyChild).1 ≠ [] :=
    hne _ (getD_mem _ _ _ hj)
  by_cases hpfx : (t.childrenL.getD j dummyChild).1 <+: (c :: rest)
  · rw [if_pos ⟨hj, hne1, hpfx⟩, if_pos hpfx]
  · rw [if_neg (by rintro ⟨h1, h2, h3⟩; exact hpfx h3), if_neg hpfx]

theorem walkF_fuel (fuel1 : Nat) : ∀ (fuel2 : Nat) (t : TrieNode) (path : Str),
    path.length ≤ fuel1 → path.length ≤ fuel2 → walkF fuel1 t path = walkF fuel2 t path := by
  induction fuel1 with
  | zero =>
    intro fuel2 t path h1 h2
    cases path with
    | nil => cases fuel2 <;> rfl
    | cons c rest => simp at h1
  | succ fuel1 ih =>
    intro fuel2 t path h1 h2
    cases path with
    | nil => cases fuel2 <;> rfl
    | cons c rest =>
      cases fuel2 with
      | zero => simp at h2
      | succ fuel2 =>
        rw [walkF_succ, walkF_succ]
        set i := childSearch t.childrenL c with hidef
        set e := t.childrenL.getD i dummyChild with hedef
        by_cases hg : i < t.childrenL.length ∧ e.1 ≠ [] ∧ e.1 <+: (c :: rest)
        · rw [if_pos hg, if_pos hg]
          have hlen : 1 ≤ e.1.length := by
            cases hE : e.1 with
            | nil => exact absurd hE hg.2.1
            | cons x xs => simp
          have hd : ((c :: rest).drop e.1.length).length ≤ rest.length := by
            rw [List.length_drop]
            simp only [List.length_cons]
            omega
          simp only [List.length_cons] at h1 h2
          exact ih fuel2 e.2 _ (by omega) (by omega)
        · rw [if_neg hg, if_neg hg]

theorem walk_nil (t : TrieNode) : walk t [] = t := rfl

theorem walk_cons_none (t : TrieNode) (c : Nat) (rest : Str)
    (hs : StructInv t) (hnone : ∀ e ∈ t.childrenL, fbOf e ≠ c) :
    walk t (c :: rest) = t :=
  walkF_cons_none rest.length t c rest hs hnone

theorem walk_cons_found (t : TrieNode) (c : Nat) (rest : Str)
    (hs : StructInv t) (j : Nat) (hj : j < t.childrenL.length)
    (hfb : fbOf (t.childrenL.getD j dummyChild) = c) :
    walk t (c :: rest) =
      (if (t.childrenL.getD j dummyChild).1 <+: (c :: rest) then
        walk (t.childrenL.getD j dummyChild).2
          ((c :: rest).drop (t.childrenL.getD j dummyChild).1.length)
      else t) := by
  rw [walk]
  rw [show (c :: rest).length = rest.length + 1 from rfl]
  rw [walkF_cons_found rest.length t c rest hs j hj hfb]
  by_cases hpfx : (t.childrenL.getD j dummyChild).1 <+: (c :: rest)
  · rw [if_pos hpfx, if_pos hpfx, walk]
    apply walkF_fuel
    · rw [List.length_drop]
      obtain ⟨hne, _, _⟩ := (structInv_iff t).mp hs
      have : (t.childrenL.getD j dummyChild).1 ≠ [] := hne _ (getD_mem _ _ _ hj)
      have : 1 ≤ (t.childrenL.getD j dummyChild).1.length := by
        cases hE : (t.childrenL.getD j dummyChild).1 with
        | nil => exact absurd hE this
        | cons x xs => simp
      simp only [List.length_cons]
      omega
    · exact le_refl _
  · rw [if_neg hpfx, if_neg hpfx]

theorem walk_leaf (rs : List Nat) (path : Str) : walk (.mk rs .nil) path = .mk rs .nil := by
  cases path with
  | nil => rfl
  | cons c rest => rfl

theorem appendAll_routes (t : TrieNode) (idx : Nat) :
    (t.appendAll idx).routes = t.routes ++ [idx] := by
  cases t with
  | mk rs cs => rfl

theorem appendAllC_toList : ∀ (cs : ChildList) (idx : Nat),
    (cs.appendAllC idx).toList = cs.toList.map (fun c => (c.1, c.2.appendAll idx))
  | .nil, _ => rfl
  | .cons p t rest, idx => by
    simp [ChildList.appendAllC, ChildList.toList, appendAllC_toList rest idx]

theorem appendAll_childrenL (t : TrieNode) (idx : Nat) :
    (t.appendAll idx).childrenL = t.childrenL.map (fun c => (c.1, c.2.appendAll idx)) := by
  cases t with
  | mk rs cs => simp [TrieNode.appendAll, TrieNode.childrenL, appendAllC_toList]

theorem walkF_appendAll (fuel : Nat) : ∀ (t : TrieNode) (path : Str) (idx : Nat),
    walkF fuel (t.appendAll idx) path = (walkF fuel t path).appendAll idx := by
  induction fuel with
  | zero =>
    intro t path idx
    cases path with
    | nil => rfl
    | cons c rest => rfl
  | succ fuel ih =>
    intro t path idx
    cases path with
    | nil => rfl
    | cons c rest =>
      rw [walkF_succ, walkF_succ, appendAll_childrenL]
      have hlen : (t.childrenL.map (fun c => (c.1, c.2.appendAll idx))).length
          = t.childrenL.length := by simp
      have hfb : ∀ j, fbOf ((t.childrenL.map (fun c => (c.1, c.2.appendAll idx))).getD j dummyChild)
          = fbOf (t.childrenL.getD j dummyChild) := by
        intro j
        by_cases hj : j < t.childrenL.length
        · rw [List.getD_eq_getElem _ _ (by simpa using hj), List.getD_eq_getElem _ _ hj]
          simp [fbOf]
        · rw [List.getD_eq_default _ _ (by simpa using not_lt.mp hj),
            List.getD_eq_default _ _ (by simpa using not_lt.mp hj)]
      have hsearch : childSearch (t.childrenL.map (fun c => (c.1, c.2.appendAll idx))) c
          = childSearch t.childrenL c := by
        rw [childSearch, childSearch, hlen]
        congr 1
        funext j
        rw [hfb j]
      rw [hsearch, hlen]
      set i := childSearch t.childrenL c with hidef
      by_cases hi : i < t.childrenL.length
      · rw [List.getD_eq_getElem _ _ (by simpa using hi), List.getD_eq_getElem _ _ hi]
        simp only [List.getElem_map]
        by_cases hg : (t.childrenL[i]).1 ≠ [] ∧ (t.childrenL[i]).1 <+: (c :: rest)
        · rw [if_pos ⟨by simpa using hi, hg.1, hg.2⟩, if_pos ⟨hi, hg.1, hg.2⟩]
          exact ih _ _ _
        · rw [if_neg (by rintro ⟨h1, h2, h3⟩; exact hg ⟨h2, h3⟩),
            if_neg (by rintro ⟨h1, h2, h3⟩; exact hg ⟨h2, h3⟩)]
      · rw [if_neg (by rintro ⟨h1, h2, h3⟩; exact hi (by simpa using h1)),
          if_neg (by rintro ⟨h1, h2, h3⟩; exact hi h1)]

theorem walk_appendAll (t : TrieNode) (path : Str) (idx : Nat) :
    walk (t.appendAll idx) path = (walk t path).appendAll idx :=
  walkF_appendAll path.length t path idx

theorem childSearch_le (l : List (Str × TrieNode)) (ch : Nat) : childSearch l ch ≤ l.length :=
  sortSearch_le _ _

theorem childSearch_found (l : List (Str × TrieNode)) (ch : Nat) (j : Nat)
    (hj : j < l.length) (hfb : fbOf (l.getD j dummyChild) = ch)
    (hsorted : l.Pairwise (fun a b => fbOf a < fbOf b)) :
    childSearch l ch = j := by
  apply sortSearch_eq _ _ j hj
  · intro k hk
    have hklt : k < l.length := lt_trans hk hj
    have := List.pairwise_iff_getElem.mp hsorted k j hklt hj hk
    rw [List.getD_eq_getElem _ _ hklt]
    simp only [decide_eq_false_iff_not, not_le]
    rw [List.getD_eq_getElem _ _ hj] at hfb
    omega
  · rw [hfb]
    simp

theorem structInv_appendAll (t : TrieNode) (idx : Nat) (hs : StructInv t) :
    StructInv (t.appendAll idx) := by
  induction hs with
  | mk rs cs hne hsorted hrec ih =>
    apply (structInv_iff _).mpr
    rw [appendAll_childrenL]
    have hcl : (TrieNode.mk rs cs).childrenL = cs.toList := rfl
    rw [hcl]
    refine ⟨?_, ?_, ?_⟩
    · intro c hc
      obtain ⟨c0, hc0, rfl⟩ := List.mem_map.mp hc
      exact hne c0 hc0
    · rw [List.pairwise_map]
      exact hsorted
    · intro c hc
      obtain ⟨c0, hc0, rfl⟩ := List.mem_map.mp hc
      exact ih c0 hc0

mutual
theorem clone_eq : ∀ t : TrieNode, t.clone = t
  | .mk rs cs => by
    rw [TrieNode.clone, cloneC_eq cs]
theorem cloneC_eq : ∀ cs : ChildList, cs.cloneC = cs
  | .nil => rfl
  | .cons p t rest => by
    rw [ChildList.cloneC, clone_eq t, cloneC_eq rest]
end

theorem drop_of_prefix_ne (lp e : Str) (hp : lp <+: e) (hne : e ≠ lp) :
    e.drop lp.length ≠ [] := by
  obtain ⟨tail, rfl⟩ := hp
  rw [List.drop_left]
  intro h
  subst h
  simp at hne

theorem addF_nil (fuel : Nat) (t : TrieNode) (idx : Nat) :
    addF fuel t [] idx = t.appendAll idx := by
  cases fuel with
  | zero => rfl
  | succ fuel => cases t with | mk rs cs => rfl

theorem addF_succ (fuel : Nat) (rs : List Nat) (csl : ChildList) (ch : Nat) (rest : Str)
    (idx : Nat) :
    addF (fuel + 1) (.mk rs csl) (ch :: rest) idx =
      (if childSearch csl.toList ch = csl.toList.length
          ∨ ch ≠ fbOf (csl.toList.getD (childSearch csl.toList ch) dummyChild) then
        .mk rs (ChildList.ofList (sortChildren
          (csl.toList ++ [(ch :: rest, .mk (rs ++ [idx]) .nil)])))
      else
        if (csl.toList.getD (childSearch csl.toList ch) dummyChild).1
            = longestCommon (ch :: rest) (csl.toList.getD (childSearch csl.toList ch) dummyChild).1 then
          .mk rs (ChildList.ofList (csl.toList.set (childSearch csl.toList ch)
            ((csl.toList.getD (childSearch csl.toList ch) dummyChild).1,
              addF fuel (csl.toList.getD (childSearch csl.toList ch) dummyChild).2
                ((ch :: rest).drop (longestCommon (ch :: rest)
                  (csl.toList.getD (childSearch csl.toList ch) dummyChild).1).length) idx)))
        else
          .mk rs (ChildList.ofList (sortChildren (csl.toList.set (childSearch csl.toList ch)
            (longestCommon (ch :: rest) (csl.toList.getD (childSearch csl.toList ch) dummyChild).1,
              addF fuel (.mk rs (.cons ((csl.toList.getD (childSearch csl.toList ch) dummyChild).1.drop
                  (longestCommon (ch :: rest)
                    (csl.toList.getD (childSearch csl.toList ch) dummyChild).1).length)
                (csl.toList.getD (childSearch csl.toList ch) dummyChild).2 .nil))
                ((ch :: rest).drop (longestCommon (ch :: rest)
                  (csl.toList.getD (childSearch csl.toList ch) dummyChild).1).length) idx))))) := rfl

theorem addF_cons_none (fuel : Nat) (rs : List Nat) (csl : ChildList) (ch : Nat) (rest : Str)
    (idx : Nat) (hnone : ∀ e ∈ csl.toList, fbOf e ≠ ch) :
    addF (fuel + 1) (.mk rs csl) (ch :: rest) idx
      = .mk rs (ChildList.ofList (sortChildren
          (csl.toList ++ [(ch :: rest, .mk (rs ++ [idx]) .nil)]))) := by
  rw [addF_succ, if_pos]
  by_cases hi : childSearch csl.toList ch < csl.toList.length
  · right
    intro h
    exact hnone _ (getD_mem _ _ _ hi) h.symm
  · left
    have := childSearch_le csl.toList ch
    omega

theorem addF_cons_found (fuel : Nat) (rs : List Nat) (csl : ChildList) (ch : Nat) (rest : Str)
    (idx : Nat) (j : Nat) (hj : j < csl.toList.length)
    (hfb : fbOf (csl.toList.getD j dummyChild) = ch)
    (hsorted : csl.toList.Pairwise (fun a b => fbOf a < fbOf b)) :
    addF (fuel + 1) (.mk rs csl) (ch :: rest) idx =
      (if (csl.toList.getD j dummyChild).1
          = longestCommon (ch :: rest) (csl.toList.getD j dummyChild).1 then
        .mk rs (ChildList.ofList (csl.toList.set j
          ((csl.toList.getD j dummyChild).1,
            addF fuel (csl.toList.getD j dummyChild).2
              ((ch :: rest).drop (longestCommon (ch :: rest)
                (csl.toList.getD j dummyChild).1).length) idx)))
      else
        .mk rs (ChildList.ofList (sortChildren (csl.toList.set j
          (longestCommon (ch :: rest) (csl.toList.getD j dummyChild).1,
            addF fuel (.mk rs (.cons ((csl.toList.getD j dummyChild).1.drop
                (longestCommon (ch :: rest) (csl.toList.getD j dummyChild).1).length)
              (csl.toList.getD j dummyChild).2 .nil))
              ((ch :: rest).drop (longestCommon (ch :: rest)
                (csl.toList.getD j dummyChild).1).length) idx))))) := by
  have hsearch : childSearch csl.toList ch = j := childSearch_found _ _ j hj hfb hsorted
  rw [addF_succ, hsearch, if_neg]
  push_neg
  exact ⟨by omega, hfb.symm⟩

theorem addF_fuel (fuel1 : Nat) : ∀ (fuel2 : Nat) (t : TrieNode) (p : Str) (idx : Nat),
    StructInv t → p.length ≤ fuel1 → p.length ≤ fuel2 →
    addF fuel1 t p idx = addF fuel2 t p idx := by
  induction fuel1 with
  | zero =>
    intro fuel2 t p idx hs h1 h2
    cases p with
    | nil => rw [addF_nil, addF_nil]
    | cons ch rest => simp at h1
  | succ fuel1 ih =>
    intro fuel2 t p idx hs h1 h2
    cases p with
    | nil => rw [addF_nil, addF_nil]
    | cons ch rest =>
      cases fuel2 with
      | zero => simp at h2
      | succ fuel2 =>
        cases t with
        | mk rs csl =>
          obtain ⟨hne, hsorted, hrec⟩ := (structInv_iff (.mk rs csl)).mp hs
          by_cases hcase : ∃ j, j < csl.toList.length ∧ fbOf (csl.toList.getD j dummyChild) = ch
          · obtain ⟨j, hj, hfb⟩ := hcase
            rw [addF_cons_found fuel1 rs csl ch rest idx j hj hfb hsorted,
                addF_cons_found fuel2 rs csl ch rest idx j hj hfb hsorted]
            have hcne : (csl.toList.getD j dummyChild).1 ≠ [] := hne _ (getD_mem _ _ _ hj)
            have hlp1 : 1 ≤ (longestCommon (ch :: rest)
                (csl.toList.getD j dummyChild).1).length := by
              cases hE : (csl.toList.getD j dummyChild).1 with
              | nil => exact absurd hE hcne
              | cons x xs =>
                have hx : x = ch := by rw [fbOf, hE] at hfb; simpa using hfb
                subst hx
                rw [longestCommon_cons]
                simp
            have hplen : ((ch :: rest).drop (longestCommon (ch :: rest)
                (csl.toList.getD j dummyChild).1).length).length ≤ rest.length := by
              rw [List.length_drop]
              simp only [List.length_cons]
              omega
            simp only [List.length_cons] at h1 h2
            by_cases heq : (csl.toList.getD j dummyChild).1
                = longestCommon (ch :: rest) (csl.toList.getD j dummyChild).1
            · rw [if_pos heq, if_pos heq]
              rw [ih fuel2 (csl.toList.getD j dummyChild).2 _ idx
                (hrec _ (getD_mem _ _ _ hj)) (by omega) (by omega)]
            · rw [if_neg heq, if_neg heq]
              have hsplit : StructInv (.mk rs (.cons
                  ((csl.toList.getD j dummyChild).1.drop (longestCommon (ch :: rest)
                    (csl.toList.getD j dummyChild).1).length)
                  (csl.toList.getD j dummyChild).2 .nil)) := by
                apply (structInv_iff _).mpr
                refine ⟨?_, ?_, ?_⟩
                · intro c hc
                  have : c = ((csl.toList.getD j dummyChild).1.drop (longestCommon (ch :: rest)
                      (csl.toList.getD j dummyChild).1).length,
                      (csl.toList.getD j dummyChild).2) := by
                    simpa [TrieNode.childrenL, ChildList.toList] using hc
                  rw [this]
                  exact drop_of_prefix_ne _ _
                    (longestCommon_spec (ch :: rest) (csl.toList.getD j dummyChild).1).2.1
                    (fun h => heq h)
                · simp [TrieNode.childrenL, ChildList.toList]
                · intro c hc
                  have : c = ((csl.toList.getD j dummyChild).1.drop (longestCommon (ch :: rest)
                      (csl.toList.getD j dummyChild).1).length,
                      (csl.toList.getD j dummyChild).2) := by
                    simpa [TrieNode.childrenL, ChildList.toList] using hc
                  rw [this]
                  exact hrec (csl.toList.getD j dummyChild) (getD_mem _ _ _ hj)
              rw [ih fuel2 _ _ idx hsplit (by omega) (by omega)]
          · push_neg at hcase
            have hnone : ∀ e ∈ csl.toList, fbOf e ≠ ch := by
              intro e he
              obtain ⟨i, hi, rfl⟩ := List.mem_iff_getElem.mp he
              have := hcase i hi
              rw [List.getD_eq_getElem _ _ hi] at this
              exact this
            rw [addF_cons_none fuel1 rs csl ch rest idx hnone,
                addF_cons_none fuel2 rs csl ch rest idx hnone]

theorem add_nil (t : TrieNode) (idx : Nat) : add t [] idx = t.appendAll idx :=
  addF_nil 0 t idx

theorem add_cons_none (rs : List Nat) (csl : ChildList) (ch : Nat) (rest : Str) (idx : Nat)
    (hnone : ∀ e ∈ csl.toList, fbOf e ≠ ch) :
    add (.mk rs csl) (ch :: rest) idx
      = .mk rs (ChildList.ofList (sortChildren
          (csl.toList ++ [(ch :: rest, .mk (rs ++ [idx]) .nil)]))) :=
  addF_cons_none rest.length rs csl ch rest idx hnone

theorem pairwise_fb_set (l : List (Str × TrieNode)) (j : Nat) (x : Str × TrieNode)
    (hj : j < l.length) (hfb : fbOf x = fbOf (l.getD j dummyChild))
    (hs : l.Pairwise (fun a b => fbOf a < fbOf b)) :
    (l.set j x).Pairwise (fun a b => fbOf a < fbOf b) := by
  rw [List.getD_eq_getElem _ _ hj] at hfb
  rw [List.pairwise_iff_getElem] at hs ⊢
  intro a b ha hb hab
  rw [List.length_set] at ha hb
  rw [List.getElem_set, List.getElem_set]
  by_cases haj : j = a
  · subst haj
    rw [if_pos rfl, if_neg (by omega), hfb]
    exact hs j b hj hb hab
  · rw [if_neg haj]
    by_cases hbj : j = b
    · subst hbj
      rw [if_pos rfl, hfb]
      exact hs a j ha hj hab
    · rw [if_neg hbj]
      exact hs a b ha hb hab

theorem mem_set_edges (l : List (Str × TrieNode)) (j : Nat) (x y : Str × TrieNode)
    (hy : y ∈ l.set j x) : y = x ∨ y ∈ l := by
  rcases List.mem_or_eq_of_mem_set hy with h | h
  · exact Or.inr h
  · exact Or.inl h


theorem structInv_split0 (rs : List Nat) (e : Str) (tc : TrieNode) (lp : Str)
    (he : lp <+: e) (hne : e ≠ lp) (htc : StructInv tc) :
    StructInv (.mk rs (.cons (e.drop lp.length) tc .nil)) := by
  apply (structInv_iff _).mpr
  refine ⟨?_, by simp [TrieNode.childrenL, ChildList.toList], ?_⟩
  · intro c hc
    have hcc : c = (e.drop lp.length, tc) := by
      simpa [TrieNode.childrenL, ChildList.toList] using hc
    rw [hcc]
    exact drop_of_prefix_ne lp e he hne
  · intro c hc
    have hcc : c = (e.drop lp.length, tc) := by
      simpa [TrieNode.childrenL, ChildList.toList] using hc
    rw [hcc]
    exact htc

theorem lp_head (ch : Nat) (rest e : Str) (hfb : fbOf (e, tc) = ch) (hene : e ≠ []) :
    ∃ xs, e = ch :: xs := by
  cases hE : e with
  | nil => exact absurd hE hene
  | cons x xs =>
    rw [hE] at hfb
    rw [fbOf] at hfb
    simp at hfb
    exact ⟨xs, by rw [hfb]⟩

theorem add_cons_found (rs : List Nat) (csl : ChildList) (ch : Nat) (rest : Str) (idx : Nat)
    (j : Nat) (hj : j < csl.toList.length) (e : Str) (tc : TrieNode)
    (hc : csl.toList.getD j dummyChild = (e, tc)) (hfb : fbOf (e, tc) = ch)
    (hsinv : StructInv (.mk rs csl)) :
    add (.mk rs csl) (ch :: rest) idx =
      (if e = longestCommon (ch :: rest) e then
        .mk rs (ChildList.ofList (csl.toList.set j
          (e, add tc ((ch :: rest).drop (longestCommon (ch :: rest) e).length) idx)))
      else
        .mk rs (ChildList.ofList (sortChildren (csl.toList.set j
          (longestCommon (ch :: rest) e,
            add (.mk rs (.cons (e.drop (longestCommon (ch :: rest) e).length) tc .nil))
              ((ch :: rest).drop (longestCommon (ch :: rest) e).length) idx))))) := by
  obtain ⟨hne, hsorted, hrec⟩ := (structInv_iff (.mk rs csl)).mp hsinv
  have htc : StructInv tc := by
    have := hrec _ (getD_mem csl.toList dummyChild j hj)
    rw [hc] at this
    exact this
  have hene : e ≠ [] := by
    have := hne _ (getD_mem csl.toList dummyChild j hj)
    rw [hc] at this
    exact this
  obtain ⟨xs, hexs⟩ := lp_head ch rest e hfb hene
  have hlp1 : 1 ≤ (longestCommon (ch :: rest) e).length := by
    rw [hexs, longestCommon_cons]
    simp
  have hplen : ((ch :: rest).drop (longestCommon (ch :: rest) e).length).length ≤ rest.length := by
    rw [List.length_drop]
    simp only [List.length_cons]
    omega
  rw [add]
  rw [show (ch :: rest).length = rest.length + 1 from rfl]
  rw [addF_cons_found rest.length rs csl ch rest idx j hj (by rw [hc]; exact hfb) hsorted, hc]
  by_cases heq : e = longestCommon (ch :: rest) e
  · rw [if_pos heq, if_pos heq]
    have hrw : addF rest.length tc
        ((ch :: rest).drop (longestCommon (ch :: rest) e).length) idx
        = add tc ((ch :: rest).drop (longestCommon (ch :: rest) e).length) idx := by
      rw [add]
      exact addF_fuel rest.length _ tc _ idx htc hplen (le_refl _)
    rw [hrw]
  · rw [if_neg heq, if_neg heq]
    have hsp0 : StructInv (.mk rs (.cons (e.drop (longestCommon (ch :: rest) e).length) tc .nil)) :=
      structInv_split0 rs e tc _ (longestCommon_spec (ch :: rest) e).2.1 heq htc
    have hrw : addF rest.length (.mk rs (.cons (e.drop (longestCommon (ch :: rest) e).length) tc .nil))
        ((ch :: rest).drop (longestCommon (ch :: rest) e).length) idx
        = add (.mk rs (.cons (e.drop (longestCommon (ch :: rest) e).length) tc .nil))
          ((ch :: rest).drop (longestCommon (ch :: rest) e).length) idx := by
      rw [add]
      exact addF_fuel rest.length _ _ _ idx hsp0 hplen (le_refl _)
    rw [hrw]

theorem hnone_of_no_idx (l : List (Str × TrieNode)) (ch : Nat)
    (hcase : ∀ j, j < l.length → fbOf (l.getD j dummyChild) ≠ ch) :
    ∀ e ∈ l, fbOf e ≠ ch := by
  intro e he
  obtain ⟨i, hi, rfl⟩ := List.mem_iff_getElem.mp he
  have := hcase i hi
  rw [List.getD_eq_getElem _ _ hi] at this
  exact this

theorem structInv_add (n : Nat) : ∀ (p : Str), p.length ≤ n → ∀ (t : TrieNode) (idx : Nat),
    StructInv t → StructInv (add t p idx) := by
  induction n with
  | zero =>
    intro p hp t idx hs
    cases p with
    | nil => rw [add_nil]; exact structInv_appendAll t idx hs
    | cons ch rest => simp at hp
  | succ n ih =>
    intro p hp t idx hs
    cases p with
    | nil => rw [add_nil]; exact structInv_appendAll t idx hs
    | cons ch rest =>
      cases t with
      | mk rs csl =>
        obtain ⟨hne, hsorted, hrec⟩ := (structInv_iff (.mk rs csl)).mp hs
        simp only [List.length_cons] at hp
        by_cases hcase : ∃ j, j < csl.toList.length ∧ fbOf (csl.toList.getD j dummyChild) = ch
        · obtain ⟨j, hj, hfbj⟩ := hcase
          rcases hc : csl.toList.getD j dummyChild with ⟨e, tc⟩
          rw [hc] at hfbj
          have htc : StructInv tc := by
            have := hrec _ (getD_mem csl.toList dummyChild j hj)
            rw [hc] at this
            exact this
          have hene : e ≠ [] := by
            have := hne _ (getD_mem csl.toList dummyChild j hj)
            rw [hc] at this
            exact this
          obtain ⟨xs, hexs⟩ := lp_head ch rest e hfbj hene
          have hlp1 : 1 ≤ (longestCommon (ch :: rest) e).length := by
            rw [hexs, longestCommon_cons]
            simp
          have hplen : ((ch :: rest).drop
              (longestCommon (ch :: rest) e).length).length ≤ n := by
            rw [List.length_drop]
            simp only [List.length_cons]
            omega
          have hfblp : fbOf (longestCommon (ch :: rest) e, dummyChild.2) = ch := by
            rw [hexs, longestCommon_cons, fbOf]
            rfl
          rw [add_cons_found rs csl ch rest idx j hj e tc hc hfbj hs]
          by_cases heq : e = longestCommon (ch :: rest) e
          · rw [if_pos heq]
            apply (structInv_iff _).mpr
            have hcl : (TrieNode.mk rs (ChildList.ofList (csl.toList.set j
                (e, add tc ((ch :: rest).drop
                  (longestCommon (ch :: rest) e).length) idx)))).childrenL
                = csl.toList.set j (e, add tc ((ch :: rest).drop
                  (longestCommon (ch :: rest) e).length) idx) := by
              simp [TrieNode.childrenL]
            rw [hcl]
            refine ⟨?_, ?_, ?_⟩
            · intro c hcm
              rcases mem_set_edges _ _ _ _ hcm with rfl | hcm
              · exact hene
              · exact hne c hcm
            · apply pairwise_fb_set _ j _ hj _ hsorted
              rw [hc]
              rfl
            · intro c hcm
              rcases mem_set_edges _ _ _ _ hcm with rfl | hcm
              · exact ih _ hplen tc idx htc
              · exact hrec c hcm
          · rw [if_neg heq]
            have hsp0 : StructInv (.mk rs (.cons
                (e.drop (longestCommon (ch :: rest) e).length) tc .nil)) :=
              structInv_split0 rs e tc _ (longestCommon_spec (ch :: rest) e).2.1 heq htc
            apply (structInv_iff _).mpr
            have hcl : (TrieNode.mk rs (ChildList.ofList (sortChildren (csl.toList.set j
                (longestCommon (ch :: rest) e,
                  add (.mk rs (.cons (e.drop (longestCommon (ch :: rest) e).length) tc .nil))
                    ((ch :: rest).drop
                      (longestCommon (ch :: rest) e).length) idx))))).childrenL
                = sortChildren (csl.toList.set j
                  (longestCommon (ch :: rest) e,
                    add (.mk rs (.cons (e.drop (longestCommon (ch :: rest) e).length) tc .nil))
                      ((ch :: rest).drop (longestCommon (ch :: rest) e).length) idx)) := by
              simp [TrieNode.childrenL]
            rw [hcl]
            have hedges : ∀ c ∈ csl.toList.set j
                (longestCommon (ch :: rest) e,
                  add (.mk rs (.cons (e.drop (longestCommon (ch :: rest) e).length) tc .nil))
                    ((ch :: rest).drop (longestCommon (ch :: rest) e).length) idx),
                c.1 ≠ [] := by
              intro c hcm
              rcases mem_set_edges _ _ _ _ hcm with rfl | hcm
              · have hlpne : longestCommon (ch :: rest) e ≠ [] := by
                  intro hE
                  rw [hE] at hlp1
                  simp at hlp1
                exact hlpne
              · exact hne c hcm
            have hsortset := pairwise_fb_set csl.toList j
              (longestCommon (ch :: rest) e,
                add (.mk rs (.cons (e.drop (longestCommon (ch :: rest) e).length) tc .nil))
                  ((ch :: rest).drop (longestCommon (ch :: rest) e).length) idx)
              hj (by rw [hc]; rw [show fbOf (e, tc) = ch from hfbj]; exact hfblp) hsorted
            refine ⟨?_, ?_, ?_⟩
            · intro c hcm
              exact hedges c ((sortChildren_mem c _).mp hcm)
            · exact sortChildren_sorted _ hedges (hsortset.imp (fun h => ne_of_lt h))
            · intro c hcm
              rcases mem_set_edges _ _ _ _ ((sortChildren_mem c _).mp hcm) with rfl | hcm
              · exact ih _ hplen _ idx hsp0
              · exact hrec c hcm
        · push_neg at hcase
          have hnone : ∀ e ∈ csl.toList, fbOf e ≠ ch := hnone_of_no_idx _ _ hcase
          rw [add_cons_none rs csl ch rest idx hnone]
          apply (structInv_iff _).mpr
          have hcl : (TrieNode.mk rs (ChildList.ofList (sortChildren
              (csl.toList ++ [(ch :: rest, .mk (rs ++ [idx]) .nil)])))).childrenL
              = sortChildren (csl.toList ++ [(ch :: rest, .mk (rs ++ [idx]) .nil)]) := by
            simp [TrieNode.childrenL]
          rw [hcl]
          have hedges : ∀ c ∈ csl.toList ++ [(ch :: rest, TrieNode.mk (rs ++ [idx]) .nil)],
              c.1 ≠ [] := by
            intro c hcm
            rcases List.mem_append.mp hcm with hcm | hcm
            · exact hne c hcm
            · rw [List.mem_singleton.mp hcm]
              simp
          refine ⟨?_, ?_, ?_⟩
          · intro c hcm
            exact hedges c ((sortChildren_mem c _).mp hcm)
          · apply sortChildren_sorted _ hedges
            apply List.pairwise_append.mpr
            refine ⟨hsorted.imp (fun h => ne_of_lt h), by simp, ?_⟩
            intro a ha b hb
            rw [List.mem_singleton.mp hb]
            have hfbnew : fbOf (ch :: rest, TrieNode.mk (rs ++ [idx]) ChildList.nil) = ch := rfl
            rw [hfbnew]
            exact hnone a ha
          · intro c hcm
            rcases List.mem_append.mp ((sortChildren_mem c _).mp hcm) with hcm | hcm
            · exact hrec c hcm
            · rw [List.mem_singleton.mp hcm]
              exact structInv_leaf _

theorem fb_unique (l : List (Str × TrieNode))
    (hsorted : l.Pairwise (fun a b => fbOf a < fbOf b))
    (e1 e2 : Str × TrieNode) (h1 : e1 ∈ l) (h2 : e2 ∈ l) (hfb : fbOf e1 = fbOf e2) :
    e1 = e2 := by
  obtain ⟨i, hi, rfl⟩ := List.mem_iff_getElem.mp h1
  obtain ⟨j, hj, rfl⟩ := List.mem_iff_getElem.mp h2
  rcases Nat.lt_trichotomy i j with h | h | h
  · have := List.pairwise_iff_getElem.mp hsorted i j hi hj h
    omega
  · subst h
    rfl
  · have := List.pairwise_iff_getElem.mp hsorted j i hj hi h
    omega

theorem getD_set_self (l : List (Str × TrieNode)) (j : Nat) (x : Str × TrieNode)
    (hj : j < l.length) : (l.set j x).getD j dummyChild = x := by
  rw [List.getD_eq_getElem _ _ (by rw [List.length_set]; exact hj)]
  rw [List.getElem_set]
  simp

theorem mem_set_self (l : List (Str × TrieNode)) (j : Nat) (x : Str × TrieNode)
    (hj : j < l.length) : x ∈ l.set j x := by
  have hjs : j < (l.set j x).length := by rw [List.length_set]; exact hj
  have h2 : (l.set j x)[j] = x := by
    rw [List.getElem_set]
    simp
  have h3 : (l.set j x)[j] ∈ l.set j x := List.getElem_mem hjs
  rw [h2] at h3
  exact h3

theorem mem_set_of_fb_ne (l : List (Str × TrieNode)) (j : Nat) (x y : Str × TrieNode)
    (hy : y ∈ l) (hj : j < l.length)
    (hfby : fbOf y ≠ fbOf (l.getD j dummyChild)) : y ∈ l.set j x := by
  obtain ⟨i, hi, rfl⟩ := List.mem_iff_getElem.mp hy
  have hij : j ≠ i := by
    intro h
    subst h
    rw [List.getD_eq_getElem _ _ hj] at hfby
    exact hfby rfl
  have hi2 : i < (l.set j x).length := by
    rw [List.length_set]
    exact hi
  have : (l.set j x)[i] = l[i] := by
    rw [List.getElem_set, if_neg hij]
  rw [← this]
  exact List.getElem_mem _

theorem walkRoutes_head_congr (t t' : TrieNode) (hs : StructInv t) (hs' : StructInv t')
    (hroutes : t.routes = t'.routes) (d : Nat) (path1 : Str)
    (hsame : ∀ e, (e ∈ t.childrenL ∧ fbOf e = d) ↔ (e ∈ t'.childrenL ∧ fbOf e = d)) :
    (walk t (d :: path1)).routes = (walk t' (d :: path1)).routes := by
  by_cases hex : ∃ e ∈ t.childrenL, fbOf e = d
  · obtain ⟨e, he, hfb⟩ := hex
    have he' : e ∈ t'.childrenL := ((hsame e).mp ⟨he, hfb⟩).1
    obtain ⟨j, hj, hgj⟩ := List.mem_iff_getElem.mp he
    obtain ⟨j', hj', hgj'⟩ := List.mem_iff_getElem.mp he'
    have hd1 : t.childrenL.getD j dummyChild = e := by
      rw [List.getD_eq_getElem _ _ hj]
      exact hgj
    have hd2 : t'.childrenL.getD j' dummyChild = e := by
      rw [List.getD_eq_getElem _ _ hj']
      exact hgj'
    rw [walk_cons_found t d path1 hs j hj (by rw [hd1]; exact hfb),
      walk_cons_found t' d path1 hs' j' hj' (by rw [hd2]; exact hfb),
      hd1, hd2]
    by_cases hpfx : e.1 <+: (d :: path1)
    · rw [if_pos hpfx, if_pos hpfx]
    · rw [if_neg hpfx, if_neg hpfx]
      exact hroutes
  · push_neg at hex
    have hex' : ∀ e ∈ t'.childrenL, fbOf e ≠ d := by
      intro e he hfb
      exact hex e ((hsame e).mpr ⟨he, hfb⟩).1 hfb
    rw [walk_cons_none t d path1 hs hex, walk_cons_none t' d path1 hs' hex']
    exact hroutes

theorem drop_append_len {α : Type} (l1 l2 : List α) (k : Nat) :
    (l1 ++ l2).drop (l1.length + k) = l2.drop k := by
  induction l1 with
  | nil => simp
  | cons x xs ih => simpa [Nat.succ_add] using ih

/-- The central step lemma: inserting `(p, idx)` into a well-formed trie
appends `idx` to the walk result of exactly the paths that have `p` as a
prefix, and changes nothing else. -/
theorem walkRoutes_add (n : Nat) : ∀ (p : Str), p.length ≤ n → ∀ (t : TrieNode), StructInv t →
    ∀ (idx : Nat) (path : Str),
    (walk (add t p idx) path).routes
      = (walk t path).routes ++ (if p <+: path then [idx] else []) := by
  induction n with
  | zero =>
    intro p hp t hs idx path
    cases p with
    | nil => rw [add_nil, walk_appendAll, appendAll_routes, if_pos List.nil_prefix]
    | cons ch rest => simp at hp
  | succ n ih =>
    intro p hp t hs idx path
    cases p with
    | nil => rw [add_nil, walk_appendAll, appendAll_routes, if_pos List.nil_prefix]
    | cons ch rest =>
      cases t with
      | mk rs csl =>
        obtain ⟨hne, hsorted, hrec⟩ := (structInv_iff (.mk rs csl)).mp hs
        have hclt : (TrieNode.mk rs csl).childrenL = csl.toList := rfl
        rw [hclt] at hne hsorted hrec
        simp only [List.length_cons] at hp
        have hsadd : StructInv (add (.mk rs csl) (ch :: rest) idx) :=
          structInv_add (ch :: rest).length _ (le_refl _) _ idx hs
        by_cases hcase : ∃ j, j < csl.toList.length ∧ fbOf (csl.toList.getD j dummyChild) = ch
        · obtain ⟨j, hj, hfbj⟩ := hcase
          rcases hc : csl.toList.getD j dummyChild with ⟨e, tc⟩
          rw [hc] at hfbj
          have htc : StructInv tc := by
            have := hrec _ (getD_mem csl.toList dummyChild j hj)
            rw [hc] at this
            exact this
          have hene : e ≠ [] := by
            have := hne _ (getD_mem csl.toList dummyChild j hj)
            rw [hc] at this
            exact this
          obtain ⟨xs, hexs⟩ := lp_head ch rest e hfbj hene
          have hlp1 : 1 ≤ (longestCommon (ch :: rest) e).length := by
            rw [hexs, longestCommon_cons]
            simp
          rw [add_cons_found rs csl ch rest idx j hj e tc hc hfbj hs] at hsadd ⊢
          by_cases heq : e = longestCommon (ch :: rest) e
          · -- the found edge is consumed whole: recurse into the child
            rw [if_pos heq] at hsadd ⊢
            rw [← heq] at hsadd ⊢
            have hep : e <+: (ch :: rest) := by
              have h0 := (longestCommon_spec (ch :: rest) e).1
              rw [← heq] at h0
              exact h0
            obtain ⟨ptail, hptail⟩ := hep
            have helen : 1 ≤ e.length := by
              cases hE : e with
              | nil => exact absurd hE hene
              | cons x xsE => simp
            have hplen : ((ch :: rest).drop e.length).length ≤ n := by
              rw [List.length_drop]
              simp only [List.length_cons]
              omega
            have hT1c : (TrieNode.mk rs (ChildList.ofList (csl.toList.set j
                (e, add tc ((ch :: rest).drop e.length) idx)))).childrenL
                = csl.toList.set j (e, add tc ((ch :: rest).drop e.length) idx) := by
              simp [TrieNode.childrenL]
            cases path with
            | nil =>
              rw [walk_nil, walk_nil]
              have hnp : ¬ (ch :: rest) <+: ([] : Str) := by simp
              rw [if_neg hnp]
              simp [TrieNode.routes]
            | cons d path1 =>
              by_cases hd : ch = d
              · subst hd
                have hjs : j < (csl.toList.set j
                    (e, add tc ((ch :: rest).drop e.length) idx)).length := by
                  rw [List.length_set]
                  exact hj
                have hgds : (csl.toList.set j
                    (e, add tc ((ch :: rest).drop e.length) idx)).getD j dummyChild
                    = (e, add tc ((ch :: rest).drop e.length) idx) :=
                  getD_set_self _ _ _ hj
                rw [walk_cons_found _ ch path1 hsadd j (by rw [hT1c]; exact hjs)
                  (by rw [hT1c, hgds]; exact hfbj)]
                rw [walk_cons_found _ ch path1 hs j (by rw [hclt]; exact hj)
                  (by rw [hclt, hc]; exact hfbj)]
                rw [hT1c, hgds, hclt, hc]
                by_cases hpfx : e <+: (ch :: path1)
                · rw [if_pos hpfx, if_pos hpfx]
                  obtain ⟨qtail, hqtail⟩ := hpfx
                  rw [ih _ hplen tc htc idx _]
                  have hiff : ((ch :: rest) <+: (ch :: path1))
                      ↔ ((ch :: rest).drop e.length <+: (ch :: path1).drop e.length) := by
                    rw [← hptail, ← hqtail, List.drop_left, List.drop_left, prefix_cancel]
                  by_cases hcnd : (ch :: rest) <+: (ch :: path1)
                  · rw [if_pos hcnd, if_pos (hiff.mp hcnd)]
                  · rw [if_neg hcnd, if_neg (fun h => hcnd (hiff.mpr h))]
                · rw [if_neg hpfx, if_neg hpfx]
                  have hnp : ¬ (ch :: rest) <+: (ch :: path1) := by
                    intro h
                    rw [← hptail] at h
                    exact hpfx (List.IsPrefix.trans (List.prefix_append e ptail) h)
                  rw [if_neg hnp]
                  simp [TrieNode.routes]
              · have hcongr := walkRoutes_head_congr (.mk rs csl) _ hs hsadd rfl d path1 ?_
                · rw [← hcongr]
                  have hnp : ¬ (ch :: rest) <+: (d :: path1) := by
                    intro h
                    exact hd (List.cons_prefix_cons.mp h).1
                  rw [if_neg hnp]
                  simp
                · intro x
                  rw [hclt, hT1c]
                  constructor
                  · rintro ⟨hx, hfbx⟩
                    refine ⟨mem_set_of_fb_ne _ j _ x hx hj ?_, hfbx⟩
                    rw [hc, hfbj, hfbx]
                    exact fun h => hd h.symm
                  · rintro ⟨hx, hfbx⟩
                    rcases mem_set_edges _ _ _ _ hx with rfl | hx
                    · exact absurd hfbx (by rw [show fbOf (e, add tc ((ch :: rest).drop e.length) idx) = ch from hfbj]; exact hd)
                    · exact ⟨hx, hfbx⟩
          · -- the found edge splits
            rw [if_neg heq] at hsadd ⊢
            have hlpp : longestCommon (ch :: rest) e <+: (ch :: rest) :=
              (longestCommon_spec (ch :: rest) e).1
            have hlpe : longestCommon (ch :: rest) e <+: e :=
              (longestCommon_spec (ch :: rest) e).2.1
            have hsp0 : StructInv (.mk rs (.cons
                (e.drop (longestCommon (ch :: rest) e).length) tc .nil)) :=
              structInv_split0 rs e tc _ hlpe heq htc
            obtain ⟨ptail, hptail⟩ := hlpp
            obtain ⟨etail, hetail⟩ := hlpe
            have hetne : etail ≠ [] := by
              intro hE
              rw [hE, List.append_nil] at hetail
              exact heq hetail.symm
            have hplen : ((ch :: rest).drop
                (longestCommon (ch :: rest) e).length).length ≤ n := by
              rw [List.length_drop]
              simp only [List.length_cons]
              omega
            have het : e.drop (longestCommon (ch :: rest) e).length = etail := by
              have h2 := congrArg
                (fun l : Str => l.drop (longestCommon (ch :: rest) e).length) hetail
              simp only [List.drop_left] at h2
              exact h2.symm
            have helen2 : e.length = (longestCommon (ch :: rest) e).length + etail.length := by
              have h2 := congrArg List.length hetail
              rw [List.length_append] at h2
              exact h2.symm
            have hT2c : (TrieNode.mk rs (ChildList.ofList (sortChildren (csl.toList.set j
                (longestCommon (ch :: rest) e,
                  add (.mk rs (.cons (e.drop (longestCommon (ch :: rest) e).length) tc .nil))
                    ((ch :: rest).drop (longestCommon (ch :: rest) e).length) idx))))).childrenL
                = sortChildren (csl.toList.set j
                  (longestCommon (ch :: rest) e,
                    add (.mk rs (.cons (e.drop (longestCommon (ch :: rest) e).length) tc .nil))
                      ((ch :: rest).drop (longestCommon (ch :: rest) e).length) idx)) := by
              simp [TrieNode.childrenL]
            have hfblp : fbOf (longestCommon (ch :: rest) e,
                add (.mk rs (.cons (e.drop (longestCommon (ch :: rest) e).length) tc .nil))
                  ((ch :: rest).drop (longestCommon (ch :: rest) e).length) idx) = ch := by
              rw [hexs, longestCommon_cons, fbOf]
              rfl
            cases path with
            | nil =>
              rw [walk_nil, walk_nil]
              have hnp : ¬ (ch :: rest) <+: ([] : Str) := by simp
              rw [if_neg hnp]
              simp [TrieNode.routes]
            | cons d path1 =>
              by_cases hd : ch = d
              · subst hd
                have hmemS : (longestCommon (ch :: rest) e,
                    add (.mk rs (.cons (e.drop (longestCommon (ch :: rest) e).length) tc .nil))
                      ((ch :: rest).drop (longestCommon (ch :: rest) e).length) idx)
                    ∈ sortChildren (csl.toList.set j
                      (longestCommon (ch :: rest) e,
                        add (.mk rs (.cons (e.drop (longestCommon (ch :: rest) e).length) tc .nil))
                          ((ch :: rest).drop (longestCommon (ch :: rest) e).length) idx)) := by
                  rw [sortChildren_mem]
                  exact mem_set_self _ _ _ hj
                obtain ⟨j2, hj2, hgj2⟩ := List.mem_iff_getElem.mp hmemS
                have hgd2 : (sortChildren (csl.toList.set j
                    (longestCommon (ch :: rest) e,
                      add (.mk rs (.cons (e.drop (longestCommon (ch :: rest) e).length) tc .nil))
                        ((ch :: rest).drop (longestCommon (ch :: rest) e).length) idx))).getD j2 dummyChild
                    = (longestCommon (ch :: rest) e,
                      add (.mk rs (.cons (e.drop (longestCommon (ch :: rest) e).length) tc .nil))
                        ((ch :: rest).drop (longestCommon (ch :: rest) e).length) idx) := by
                  rw [List.getD_eq_getElem _ _ hj2]
                  exact hgj2
                rw [walk_cons_found _ ch path1 hsadd j2 (by rw [hT2c]; exact hj2)
                  (by rw [hT2c, hgd2]; exact hfblp)]
                rw [walk_cons_found _ ch path1 hs j (by rw [hclt]; exact hj)
                  (by rw [hclt, hc]; exact hfbj)]
                rw [hT2c, hgd2, hclt, hc]
                by_cases hlppath : longestCommon (ch :: rest) e <+: (ch :: path1)
                · rw [if_pos hlppath]
                  obtain ⟨qtail, hqtail⟩ := hlppath
                  rw [ih _ hplen _ hsp0 idx _]
                  have hq : (ch :: path1).drop (longestCommon (ch :: rest) e).length = qtail := by
                    have h2 := congrArg
                      (fun l : Str => l.drop (longestCommon (ch :: rest) e).length) hqtail
                    simp only [List.drop_left] at h2
                    exact h2.symm
                  have hpt : (ch :: rest).drop (longestCommon (ch :: rest) e).length = ptail := by
                    have h2 := congrArg
                      (fun l : Str => l.drop (longestCommon (ch :: rest) e).length) hptail
                    simp only [List.drop_left] at h2
                    exact h2.symm
                  rw [hq, hpt, het]
                  have hiffp : ((ch :: rest) <+: (ch :: path1)) ↔ (ptail <+: qtail) := by
                    rw [← hptail, ← hqtail, prefix_cancel]
                  have hiffe : (e <+: (ch :: path1)) ↔ (etail <+: qtail) := by
                    rw [← hetail, ← hqtail, prefix_cancel]
                  have hsplitwalk : (walk (.mk rs (.cons etail tc .nil)) qtail).routes
                      = (if e <+: (ch :: path1) then
                          (walk tc ((ch :: path1).drop e.length)).routes else rs) := by
                    have hsp0' : StructInv (.mk rs (.cons etail tc .nil)) := by
                      rw [← het]
                      exact hsp0
                    cases hqt : qtail with
                    | nil =>
                      rw [walk_nil]
                      have hnee : ¬ e <+: (ch :: path1) := by
                        rw [hiffe, hqt]
                        simp [hetne]
                      rw [if_neg hnee]
                      rfl
                    | cons d1 q1 =>
                      by_cases hfbet : fbOf (etail, tc) = d1
                      · have hj0 : (0 : Nat) < (TrieNode.mk rs
                            (ChildList.cons etail tc .nil)).childrenL.length := by
                          simp [TrieNode.childrenL, ChildList.toList]
                        have hgd0 : (TrieNode.mk rs
                            (ChildList.cons etail tc .nil)).childrenL.getD 0 dummyChild
                            = (etail, tc) := rfl
                        rw [walk_cons_found _ d1 q1 hsp0' 0 hj0 (by rw [hgd0]; exact hfbet)]
                        rw [hgd0]
                        by_cases hpet : etail <+: (d1 :: q1)
                        · rw [if_pos hpet]
                          have hee : e <+: (ch :: path1) := by
                            rw [hiffe, hqt]
                            exact hpet
                          rw [if_pos hee]
                          have hdrop : (ch :: path1).drop e.length
                              = (d1 :: q1).drop etail.length := by
                            rw [helen2, ← hqt, ← hqtail, drop_append_len]
                          rw [hdrop]
                        · rw [if_neg hpet]
                          have hnee : ¬ e <+: (ch :: path1) := by
                            rw [hiffe, hqt]
                            exact hpet
                          rw [if_neg hnee]
                          rfl
                      · have hnonefb : ∀ x ∈ (TrieNode.mk rs
                            (ChildList.cons etail tc .nil)).childrenL, fbOf x ≠ d1 := by
                          intro x hx
                          have hxx : x = (etail, tc) := by
                            simpa [TrieNode.childrenL, ChildList.toList] using hx
                          rw [hxx]
                          exact hfbet
                        rw [walk_cons_none _ d1 q1 hsp0' hnonefb]
                        have hnee : ¬ e <+: (ch :: path1) := by
                          rw [hiffe, hqt]
                          intro hpet
                          cases hET : etail with
                          | nil => exact hetne hET
                          | cons y ys =>
                            rw [hET] at hpet
                            have hyd := (List.cons_prefix_cons.mp hpet).1
                            rw [hET] at hfbet
                            exact hfbet (by rw [fbOf]; simpa using hyd)
                        rw [if_neg hnee]
                        rfl
                  rw [hsplitwalk]
                  by_cases hee : e <+: (ch :: path1)
                  · rw [if_pos hee, if_pos hee]
                    by_cases hcnd : (ch :: rest) <+: (ch :: path1)
                    · rw [if_pos hcnd, if_pos (hiffp.mp hcnd)]
                    · rw [if_neg hcnd, if_neg (fun h => hcnd (hiffp.mpr h))]
                  · rw [if_neg hee, if_neg hee]
                    by_cases hcnd : (ch :: rest) <+: (ch :: path1)
                    · rw [if_pos hcnd, if_pos (hiffp.mp hcnd)]
                      simp [TrieNode.routes]
                    · rw [if_neg hcnd, if_neg (fun h => hcnd (hiffp.mpr h))]
                      simp [TrieNode.routes]
                · rw [if_neg hlppath]
                  have hnee : ¬ e <+: (ch :: path1) := by
                    intro h
                    refine hlppath (List.IsPrefix.trans ?_ h)
                    exact ⟨etail, hetail⟩
                  rw [if_neg hnee]
                  have hnp : ¬ (ch :: rest) <+: (ch :: path1) := by
                    intro h
                    refine hlppath (List.IsPrefix.trans ?_ h)
                    exact ⟨ptail, hptail⟩
                  rw [if_neg hnp]
                  simp [TrieNode.routes]
              · have hcongr := walkRoutes_head_congr (.mk rs csl) _ hs hsadd rfl d path1 ?_
                · rw [← hcongr]
                  have hnp : ¬ (ch :: rest) <+: (d :: path1) := by
                    intro h
                    exact hd (List.cons_prefix_cons.mp h).1
                  rw [if_neg hnp]
                  simp
                · intro x
                  rw [hclt, hT2c]
                  constructor
                  · rintro ⟨hx, hfbx⟩
                    refine ⟨?_, hfbx⟩
                    rw [sortChildren_mem]
                    refine mem_set_of_fb_ne _ j _ x hx hj ?_
                    rw [hc, hfbj, hfbx]
                    exact fun h => hd h.symm
                  · rintro ⟨hx, hfbx⟩
                    rw [sortChildren_mem] at hx
                    rcases mem_set_edges _ _ _ _ hx with rfl | hx
                    · exact absurd hfbx (by rw [hfblp]; exact hd)
                    · exact ⟨hx, hfbx⟩
        · push_neg at hcase
          have hnone : ∀ x ∈ csl.toList, fbOf x ≠ ch := hnone_of_no_idx _ _ hcase
          rw [add_cons_none rs csl ch rest idx hnone] at hsadd ⊢
          have hT0c : (TrieNode.mk rs (ChildList.ofList (sortChildren
              (csl.toList ++ [(ch :: rest, .mk (rs ++ [idx]) .nil)])))).childrenL
              = sortChildren (csl.toList ++ [(ch :: rest, .mk (rs ++ [idx]) .nil)]) := by
            simp [TrieNode.childrenL]
          cases path with
          | nil =>
            rw [walk_nil, walk_nil]
            have hnp : ¬ (ch :: rest) <+: ([] : Str) := by simp
            rw [if_neg hnp]
            simp [TrieNode.routes]
          | cons d path1 =>
            by_cases hd : ch = d
            · subst hd
              have hmemN : ((ch :: rest), TrieNode.mk (rs ++ [idx]) .nil)
                  ∈ sortChildren (csl.toList ++ [(ch :: rest, .mk (rs ++ [idx]) .nil)]) := by
                rw [sortChildren_mem]
                simp
              obtain ⟨j0, hj0, hgj0⟩ := List.mem_iff_getElem.mp hmemN
              have hgd0 : (sortChildren (csl.toList
                  ++ [(ch :: rest, .mk (rs ++ [idx]) .nil)])).getD j0 dummyChild
                  = ((ch :: rest), TrieNode.mk (rs ++ [idx]) .nil) := by
                rw [List.getD_eq_getElem _ _ hj0]
                exact hgj0
              rw [walk_cons_found _ ch path1 hsadd j0 (by rw [hT0c]; exact hj0)
                (by rw [hT0c, hgd0]; rfl)]
              rw [walk_cons_none _ ch path1 hs (by rw [hclt]; exact hnone)]
              rw [hT0c, hgd0]
              by_cases hpfx : (ch :: rest) <+: (ch :: path1)
              · rw [if_pos hpfx, if_pos hpfx, walk_leaf]
                rfl
              · rw [if_neg hpfx, if_neg hpfx]
                simp [TrieNode.routes]
            · have hcongr := walkRoutes_head_congr (.mk rs csl) _ hs hsadd rfl d path1 ?_
              · rw [← hcongr]
                have hnp : ¬ (ch :: rest) <+: (d :: path1) := by
                  intro h
                  exact hd (List.cons_prefix_cons.mp h).1
                rw [if_neg hnp]
                simp
              · intro x
                rw [hclt, hT0c]
                constructor
                · rintro ⟨hx, hfbx⟩
                  refine ⟨?_, hfbx⟩
                  rw [sortChildren_mem]
                  exact List.mem_append.mpr (Or.inl hx)
                · rintro ⟨hx, hfbx⟩
                  rw [sortChildren_mem] at hx
                  rcases List.mem_append.mp hx with hx | hx
                  · exact ⟨hx, hfbx⟩
                  · rw [List.mem_singleton.mp hx] at hfbx
                    exact absurd hfbx (by rw [show fbOf ((ch :: rest), TrieNode.mk (rs ++ [idx]) .nil) = ch from rfl]; exact hd)

/-! ## The trie built by a registration sequence -/

theorem structInv_foldl_add (ps : List (Str × Nat)) : ∀ t : TrieNode, StructInv t →
    StructInv (ps.foldl (fun t pi => add t pi.1 pi.2) t) := by
  induction ps with
  | nil => intro t ht; exact ht
  | cons pi ps ih =>
    intro t ht
    exact ih _ (structInv_add pi.1.length pi.1 (le_refl _) t pi.2 ht)

theorem structInv_buildTrie (ps : List (Str × Nat)) : StructInv (buildTrie ps) :=
  structInv_foldl_add ps emptyTrie structInv_empty

theorem walkRoutes_foldl (path : Str) : ∀ (ps : List (Str × Nat)) (t : TrieNode), StructInv t →
    (walk (ps.foldl (fun t pi => add t pi.1 pi.2) t) path).routes
      = (walk t path).routes ++ (ps.filter (fun pi => decide (pi.1 <+: path))).map Prod.snd := by
  intro ps
  induction ps with
  | nil => intro t ht; simp
  | cons pi ps ih =>
    intro t ht
    rw [List.foldl_cons, ih _ (structInv_add pi.1.length pi.1 (le_refl _) t pi.2 ht),
      walkRoutes_add pi.1.length pi.1 (le_refl _) t ht pi.2 path, List.filter_cons]
    by_cases hp : pi.1 <+: path
    · simp [hp]
    · simp [hp]

/-- The exact content of the walk's terminal candidate set: the trie built
from the pairs `ps` yields, at `path`, precisely the indices whose prefix is
a literal prefix of `path`, in insertion order. -/
theorem walkRoutes_buildTrie (ps : List (Str × Nat)) (path : Str) :
    (walk (buildTrie ps) path).routes
      = (ps.filter (fun pi => decide (pi.1 <+: path))).map Prod.snd := by
  rw [buildTrie, walkRoutes_foldl path ps emptyTrie structInv_empty, walk_emptyTrie]
  rfl

/-- C2: prefix soundness of the trie.  For every pair `(p, i)` inserted into
the trie (`trieNode.add`), and every walked path: if `i` is absent from the
terminal node's candidate set, then `p` is not a literal prefix of the path
— the trie never excludes a route whose prefix is a prefix of the path. -/
theorem C2_trie_never_excludes (ps : List (Str × Nat)) (p : Str) (i : Nat)
    (hmem : (p, i) ∈ ps) (path : Str)
    (habs : i ∉ (walk (buildTrie ps) path).routes) : ¬ p <+: path := by
  intro hpfx
  apply habs
  rw [walkRoutes_buildTrie]
  exact List.mem_map.mpr ⟨(p, i), List.mem_filter.mpr ⟨hmem, by simpa using hpfx⟩, rfl⟩

theorem C2_trie_never_excludes_witness :
    ((str "/a", 0) ∈ [((str "/a" : Str), 0), ((str "/b" : Str), 1)]
      ∧ 0 ∉ (walk (buildTrie [((str "/a" : Str), 0), ((str "/b" : Str), 1)]) (str "/bcd")).routes)
    ∧ ¬ (str "/a") <+: (str "/bcd") :=
  ⟨⟨by decide, by decide⟩,
    C2_trie_never_excludes [((str "/a" : Str), 0), ((str "/b" : Str), 1)] (str "/a") 0
      (by decide) (str "/bcd") (by decide)⟩

/-! ## Route-index content of a trie (`idxList`) -/

theorem mem_idxListC : ∀ (cs : ChildList) (x : Nat),
    x ∈ cs.idxListC ↔ ∃ c ∈ cs.toList, x ∈ c.2.idxList
  | .nil, x => by simp [ChildList.idxListC, ChildList.toList]
  | .cons p t rest, x => by
    simp only [ChildList.idxListC, ChildList.toList, List.mem_append, List.mem_cons,
      mem_idxListC rest x]
    constructor
    · rintro (h | ⟨c, hc, hx⟩)
      · exact ⟨(p, t), Or.inl rfl, h⟩
      · exact ⟨c, Or.inr hc, hx⟩
    · rintro ⟨c, (rfl | hc), hx⟩
      · exact Or.inl hx
      · exact Or.inr ⟨c, hc, hx⟩

mutual
theorem mem_idxList_appendAll : ∀ (t : TrieNode) (idx x : Nat),
    x ∈ (t.appendAll idx).idxList ↔ x ∈ t.idxList ∨ x = idx
  | .mk rs cs, idx, x => by
    rw [TrieNode.appendAll]
    simp only [TrieNode.idxList, List.mem_append, List.mem_singleton]
    constructor
    · rintro ((h | h) | h)
      · exact Or.inl (Or.inl h)
      · exact Or.inr h
      · rcases mem_idxListC_appendAllC_fwd cs idx x h with h | h
        · exact Or.inl (Or.inr h)
        · exact Or.inr h
    · rintro ((h | h) | h)
      · exact Or.inl (Or.inl h)
      · exact Or.inr (mem_idxListC_appendAllC_bwd cs idx x h)
      · exact Or.inl (Or.inr h)
theorem mem_idxListC_appendAllC_fwd : ∀ (cs : ChildList) (idx x : Nat),
    x ∈ (cs.appendAllC idx).idxListC → x ∈ cs.idxListC ∨ x = idx
  | .nil, idx, x => by simp [ChildList.appendAllC, ChildList.idxListC]
  | .cons p t rest, idx, x => by
    rw [ChildList.appendAllC]
    simp only [ChildList.idxListC, List.mem_append]
    rintro (h | h)
    · rcases (mem_idxList_appendAll t idx x).mp h with h | h
      · exact Or.inl (Or.inl h)
      · exact Or.inr h
    · rcases mem_idxListC_appendAllC_fwd rest idx x h with h | h
      · exact Or.inl (Or.inr h)
      · exact Or.inr h
theorem mem_idxListC_appendAllC_bwd : ∀ (cs : ChildList) (idx x : Nat),
    x ∈ cs.idxListC → x ∈ (cs.appendAllC idx).idxListC
  | .nil, _, x => by simp [ChildList.idxListC]
  | .cons p t rest, idx, x => by
    rw [ChildList.appendAllC]
    simp only [ChildList.idxListC, List.mem_append]
    rintro (h | h)
    · exact Or.inl ((mem_idxList_appendAll t idx x).mpr (Or.inl h))
    · exact Or.inr (mem_idxListC_appendAllC_bwd rest idx x h)
end

theorem mem_set_or {α : Type} (l : List α) (j : Nat) (y c d : α)
    (hj : j < l.length) (hc : c ∈ l) : c ∈ l.set j y ∨ c = l.getD j d := by
  obtain ⟨i, hi, rfl⟩ := List.mem_iff_getElem.mp hc
  by_cases hij : i = j
  · subst hij
    right
    rw [List.getD_eq_getElem _ _ hj]
  · left
    refine List.mem_iff_getElem.mpr ⟨i, by rw [List.length_set]; exact hi, ?_⟩
    rw [List.getElem_set_ne (fun h => hij h.symm)]

theorem mem_idxList_mk (rs : List Nat) (cs : ChildList) (x : Nat) :
    x ∈ (TrieNode.mk rs cs).idxList ↔ x ∈ rs ∨ ∃ c ∈ cs.toList, x ∈ c.2.idxList := by
  rw [TrieNode.idxList, List.mem_append, mem_idxListC]

/-- Inserting `(p, idx)` adds exactly the index `idx` to the trie's content. -/
theorem mem_idxList_add (n : Nat) : ∀ (p : Str), p.length ≤ n → ∀ (t : TrieNode), StructInv t →
    ∀ (idx x : Nat), x ∈ (add t p idx).idxList ↔ x ∈ t.idxList ∨ x = idx := by
  induction n with
  | zero =>
    intro p hp t hs idx x
    cases p with
    | nil => rw [add_nil, mem_idxList_appendAll]
    | cons ch rest => simp at hp
  | succ n ih =>
    intro p hp t hs idx x
    cases p with
    | nil => rw [add_nil, mem_idxList_appendAll]
    | cons ch rest =>
      cases t with
      | mk rs csl =>
        obtain ⟨hne, hsorted, hrec⟩ := (structInv_iff (.mk rs csl)).mp hs
        have hclt : (TrieNode.mk rs csl).childrenL = csl.toList := rfl
        rw [hclt] at hne hsorted hrec
        simp only [List.length_cons] at hp
        by_cases hcase : ∃ j, j < csl.toList.length ∧ fbOf (csl.toList.getD j dummyChild) = ch
        · obtain ⟨j, hj, hfbj⟩ := hcase
          rcases hc : csl.toList.getD j dummyChild with ⟨e, tc⟩
          rw [hc] at hfbj
          have htc : StructInv tc := by
            have := hrec _ (getD_mem csl.toList dummyChild j hj)
            rw [hc] at this
            exact this
          have hene : e ≠ [] := by
            have := hne _ (getD_mem csl.toList dummyChild j hj)
            rw [hc] at this
            exact this
          obtain ⟨xs, hexs⟩ := lp_head ch rest e hfbj hene
          have hlp1 : 1 ≤ (longestCommon (ch :: rest) e).length := by
            rw [hexs, longestCommon_cons]
            simp
          have hplen : ((ch :: rest).drop (longestCommon (ch :: rest) e).length).length ≤ n := by
            rw [List.length_drop]
            simp only [List.length_cons]
            omega
          have hmemj : (e, tc) ∈ csl.toList := by
            rw [← hc]
            exact getD_mem csl.toList dummyChild j hj
          rw [add_cons_found rs csl ch rest idx j hj e tc hc hfbj hs]
          by_cases heq : e = longestCommon (ch :: rest) e
          · rw [if_pos heq, ← heq]
            have hplen2 : ((ch :: rest).drop e.length).length ≤ n := by
              rw [heq]
              exact hplen
            rw [mem_idxList_mk, mem_idxList_mk]
            simp only [ChildList.toList_ofList]
            constructor
            · rintro (hx | ⟨c, hcm, hx⟩)
              · exact Or.inl (Or.inl hx)
              · rcases mem_set_edges _ _ _ _ hcm with rfl | hcm
                · rcases (ih _ hplen2 tc htc idx x).mp hx with hx | hx
                  · exact Or.inl (Or.inr ⟨(e, tc), hmemj, hx⟩)
                  · exact Or.inr hx
                · exact Or.inl (Or.inr ⟨c, hcm, hx⟩)
            · rintro ((hx | ⟨c, hcm, hx⟩) | hx)
              · exact Or.inl hx
              · rcases mem_set_or csl.toList j
                  (e, add tc ((ch :: rest).drop e.length) idx) c dummyChild hj hcm with hcm | hcm
                · exact Or.inr ⟨c, hcm, hx⟩
                · rw [hcm, hc] at hx
                  refine Or.inr ⟨(e, add tc ((ch :: rest).drop e.length) idx),
                    mem_set_self _ _ _ hj, ?_⟩
                  exact (ih _ hplen2 tc htc idx x).mpr (Or.inl hx)
              · refine Or.inr ⟨(e, add tc ((ch :: rest).drop e.length) idx),
                  mem_set_self _ _ _ hj, ?_⟩
                exact (ih _ hplen2 tc htc idx x).mpr (Or.inr hx)
          · rw [if_neg heq]
            have hsp0 : StructInv (.mk rs (.cons
                (e.drop (longestCommon (ch :: rest) e).length) tc .nil)) :=
              structInv_split0 rs e tc _ (longestCommon_spec (ch :: rest) e).2.1 heq htc
            have hsplitmem : ∀ y, y ∈ (TrieNode.mk rs (.cons
                (e.drop (longestCommon (ch :: rest) e).length) tc .nil)).idxList
                ↔ y ∈ rs ∨ y ∈ tc.idxList := by
              intro y
              rw [mem_idxList_mk]
              simp [ChildList.toList, ChildList.idxListC]
            rw [mem_idxList_mk, mem_idxList_mk]
            simp only [ChildList.toList_ofList, sortChildren_mem]
            constructor
            · rintro (hx | ⟨c, hcm, hx⟩)
              · exact Or.inl (Or.inl hx)
              · rcases mem_set_edges _ _ _ _ hcm with rfl | hcm
                · rcases (ih _ hplen _ hsp0 idx x).mp hx with hx | hx
                  · rcases (hsplitmem x).mp hx with hx | hx
                    · exact Or.inl (Or.inl hx)
                    · exact Or.inl (Or.inr ⟨(e, tc), hmemj, hx⟩)
                  · exact Or.inr hx
                · exact Or.inl (Or.inr ⟨c, hcm, hx⟩)
            · rintro ((hx | ⟨c, hcm, hx⟩) | hx)
              · exact Or.inl hx
              · rcases mem_set_or csl.toList j
                  (longestCommon (ch :: rest) e,
                    add (.mk rs (.cons (e.drop (longestCommon (ch :: rest) e).length) tc .nil))
                      ((ch :: rest).drop (longestCommon (ch :: rest) e).length) idx)
                  c dummyChild hj hcm with hcm | hcm
                · exact Or.inr ⟨c, hcm, hx⟩
                · rw [hcm, hc] at hx
                  refine Or.inr ⟨_, mem_set_self _ _ _ hj, ?_⟩
                  exact (ih _ hplen _ hsp0 idx x).mpr
                    (Or.inl ((hsplitmem x).mpr (Or.inr hx)))
              · refine Or.inr ⟨_, mem_set_self _ _ _ hj, ?_⟩
                exact (ih _ hplen _ hsp0 idx x).mpr (Or.inr hx)
        · push_neg at hcase
          have hnone : ∀ y ∈ csl.toList, fbOf y ≠ ch := hnone_of_no_idx _ _ hcase
          rw [add_cons_none rs csl ch rest idx hnone]
          rw [mem_idxList_mk, mem_idxList_mk]
          simp only [ChildList.toList_ofList, sortChildren_mem]
          constructor
          · rintro (hx | ⟨c, hcm, hx⟩)
            · exact Or.inl (Or.inl hx)
            · rcases List.mem_append.mp hcm with hcm | hcm
              · exact Or.inl (Or.inr ⟨c, hcm, hx⟩)
              · rw [List.mem_singleton.mp hcm] at hx
                rw [mem_idxList_mk] at hx
                rcases hx with hx | ⟨c2, hc2, _⟩
                · rcases List.mem_append.mp hx with hx | hx
                  · exact Or.inl (Or.inl hx)
                  · exact Or.inr (List.mem_singleton.mp hx)
                · simp [ChildList.toList] at hc2
          · rintro ((hx | ⟨c, hcm, hx⟩) | hx)
            · exact Or.inl hx
            · exact Or.inr ⟨c, List.mem_append.mpr (Or.inl hcm), hx⟩
            · refine Or.inr ⟨((ch :: rest), .mk (rs ++ [idx]) .nil),
                List.mem_append.mpr (Or.inr (List.mem_singleton.mpr rfl)), ?_⟩
              rw [mem_idxList_mk]
              exact Or.inl (List.mem_append.mpr (Or.inr (List.mem_singleton.mpr hx)))

/-! ## What `router.Handle` puts into each trie -/

/-- Index the registrations by position. -/
def enumFrom {α : Type} (k : Nat) : List α → List (Nat × α)
  | [] => []
  | x :: xs => (k, x) :: enumFrom (k + 1) xs

/-- Does a route whose `Methods()` is `mo` belong in method `m`'s trie
(and candidate set)?  Unrestricted routes belong everywhere. -/
def allowsM (m : Str) (mo : Option (List Str)) : Bool :=
  match mo with
  | none => true
  | some ms => ms.contains m

/-- The (prefix, index) pairs inserted into the wildcard trie: the
unrestricted registrations. -/
def wPairs (rs : List (MatcherS × Nat)) : List (Str × Nat) :=
  (enumFrom 0 rs).filterMap (fun imh =>
    if imh.2.1.methodsOf.isNone then some (imh.2.1.pfx, imh.1) else none)

/-- The (prefix, index) pairs belonging in method `m`'s trie: unrestricted
registrations plus those whose method set contains `m`. -/
def mPairs (m : Str) (rs : List (MatcherS × Nat)) : List (Str × Nat) :=
  (enumFrom 0 rs).filterMap (fun imh =>
    if allowsM m imh.2.1.methodsOf then some (imh.2.1.pfx, imh.1) else none)

theorem buildRouter_append (rs : List (MatcherS × Nat)) (mh : MatcherS × Nat) :
    buildRouter (rs ++ [mh]) = handleR (buildRouter rs) mh.1 mh.2 := by
  simp [buildRouter, List.foldl_append]

theorem enumFrom_append {α : Type} (l : List α) (x : α) : ∀ k : Nat,
    enumFrom k (l ++ [x]) = enumFrom k l ++ [(k + l.length, x)] := by
  induction l with
  | nil => intro k; simp [enumFrom]
  | cons y ys ih =>
    intro k
    simp only [List.cons_append, List.append_eq, enumFrom, ih (k + 1), List.length_cons]
    rw [show k + 1 + ys.length = k + (ys.length + 1) from by omega]

theorem enumFrom_mem {α : Type} (l : List α) : ∀ (k : Nat) (ix : Nat × α),
    ix ∈ enumFrom k l → ix.2 ∈ l := by
  induction l with
  | nil => intro k ix h; simp [enumFrom] at h
  | cons y ys ih =>
    intro k ix h
    rcases List.mem_cons.mp h with rfl | h
    · exact List.mem_cons_self _ _
    · exact List.mem_cons_of_mem _ (ih (k + 1) ix h)

theorem wPairs_append (rs : List (MatcherS × Nat)) (mh : MatcherS × Nat) :
    wPairs (rs ++ [mh]) = wPairs rs
      ++ (if mh.1.methodsOf.isNone then [(mh.1.pfx, rs.length)] else []) := by
  rw [wPairs, enumFrom_append, List.filterMap_append, wPairs]
  congr 1
  rcases hmo : mh.1.methodsOf with _ | ms
  · simp [List.filterMap, hmo]
  · simp [List.filterMap, hmo]

theorem mPairs_append (m : Str) (rs : List (MatcherS × Nat)) (mh : MatcherS × Nat) :
    mPairs m (rs ++ [mh]) = mPairs m rs
      ++ (if allowsM m mh.1.methodsOf then [(mh.1.pfx, rs.length)] else []) := by
  rw [mPairs, enumFrom_append, List.filterMap_append, mPairs]
  congr 1
  by_cases ha : allowsM m mh.1.methodsOf
  · simp [List.filterMap, ha]
  · simp [List.filterMap, ha]

theorem buildTrie_append_one (ps : List (Str × Nat)) (p : Str × Nat) :
    buildTrie (ps ++ [p]) = add (buildTrie ps) p.1 p.2 := by
  simp [buildTrie, List.foldl_append]

theorem lookupAssoc_map_add (pfx : Str) (i : Nat) (m : Str) : ∀ (l : List (Str × TrieNode)),
    lookupAssoc (l.map (fun kt => (kt.1, add kt.2 pfx i))) m
      = (lookupAssoc l m).map (fun t => add t pfx i) := by
  intro l
  induction l with
  | nil => rfl
  | cons kt rest ih =>
    obtain ⟨k0, v0⟩ := kt
    by_cases h : k0 = m
    · simp [lookupAssoc, h]
    · simp [lookupAssoc, h, ih]

theorem handleMethods_cons (wc : TrieNode) (pfx : Str) (i : Nat) (m1 : Str) (ms : List Str)
    (acc : List (Str × TrieNode)) :
    handleMethods wc pfx i (m1 :: ms) acc
      = handleMethods wc pfx i ms
          (match lookupAssoc acc m1 with
           | none => setAssoc acc m1 (add wc.clone pfx i)
           | some t => setAssoc acc m1 (add t pfx i)) := by
  rw [handleMethods, handleMethods, List.foldl_cons]

theorem handleMethods_lookup_notmem (wc : TrieNode) (pfx : Str) (i : Nat) :
    ∀ (ms : List Str) (acc : List (Str × TrieNode)) (m : Str), m ∉ ms →
    lookupAssoc (handleMethods wc pfx i ms acc) m = lookupAssoc acc m := by
  intro ms
  induction ms with
  | nil => intro acc m _; rfl
  | cons m1 ms ih =>
    intro acc m hm
    have hne : m1 ≠ m := fun h => hm (by rw [h]; exact List.mem_cons_self _ _)
    have hm2 : m ∉ ms := fun h => hm (List.mem_cons_of_mem _ h)
    rw [handleMethods_cons]
    rcases hl1 : lookupAssoc acc m1 with _ | t
    · rw [ih _ m hm2, lookupAssoc_setAssoc_ne _ _ _ _ hne]
    · rw [ih _ m hm2, lookupAssoc_setAssoc_ne _ _ _ _ hne]

theorem handleMethods_lookup_mem (wc : TrieNode) (pfx : Str) (i : Nat) :
    ∀ (ms : List Str), ms.Nodup → ∀ (acc : List (Str × TrieNode)) (m : Str), m ∈ ms →
    lookupAssoc (handleMethods wc pfx i ms acc) m
      = some (match lookupAssoc acc m with
              | none => add wc.clone pfx i
              | some t => add t pfx i) := by
  intro ms
  induction ms with
  | nil => intro _ acc m hm; simp at hm
  | cons m1 ms ih =>
    intro hnd acc m hm
    rw [handleMethods_cons]
    by_cases hmm1 : m = m1
    · subst hmm1
      have hnotin : m ∉ ms := (List.nodup_cons.mp hnd).1
      rw [handleMethods_lookup_notmem wc pfx i ms _ m hnotin]
      rcases hl1 : lookupAssoc acc m with _ | t
      · simp [lookupAssoc_setAssoc_self]
      · simp [lookupAssoc_setAssoc_self]
    · have hm2 : m ∈ ms := by
        rcases List.mem_cons.mp hm with h | h
        · exact absurd h hmm1
        · exact h
      rw [ih (List.nodup_cons.mp hnd).2 _ m hm2]
      have hlk : ∀ v : TrieNode, lookupAssoc (setAssoc acc m1 v) m = lookupAssoc acc m :=
        fun v => lookupAssoc_setAssoc_ne _ _ _ _ (fun h => hmm1 h.symm)
      rcases hl1 : lookupAssoc acc m1 with _ | t
      · rw [hlk]
      · rw [hlk]

/-- If no route registered so far names method `m`, the pairs belonging in an
`m` trie are exactly the wildcard pairs. -/
theorem mPairs_eq_wPairs (m : Str) (rs : List (MatcherS × Nat))
    (hnm : ∀ mh ∈ rs, ∀ ms, mh.1.methodsOf = some ms → m ∉ ms) :
    mPairs m rs = wPairs rs := by
  rw [mPairs, wPairs]
  apply List.filterMap_congr
  intro imh hmem
  have h2 := enumFrom_mem rs 0 imh hmem
  rcases hmo : imh.2.1.methodsOf with _ | ms
  · simp [allowsM, hmo]
  · have hmnm : m ∉ ms := hnm imh.2 h2 ms hmo
    have hcont : allowsM m (some ms) = false := by
      rw [allowsM]
      exact (Bool.eq_false_iff).mpr (fun h => hmnm (List.elem_iff.mp h))
    simp [hmo, hcont]

/-- The router invariant maintained by `router.Handle`: the stored route
list mirrors the registrations; the wildcard trie is built from the
unrestricted registrations; each per-method trie is built from that
method's registrations; a method with no trie was never named by any
registration. -/
def RI (rs : List (MatcherS × Nat)) (r : GoRouter) : Prop :=
  r.routes = rs.map (fun mh => { matcher := mh.1, handler := mh.2 }) ∧
  r.wildcard = buildTrie (wPairs rs) ∧
  (∀ m t, lookupAssoc r.methods m = some t → t = buildTrie (mPairs m rs)) ∧
  (∀ m, lookupAssoc r.methods m = none →
    ∀ mh ∈ rs, ∀ ms, mh.1.methodsOf = some ms → m ∉ ms)

theorem handleR_none (r : GoRouter) (m : MatcherS) (h : Nat) (hmo : m.methodsOf = none) :
    handleR r m h =
      { routes := r.routes ++ [{ matcher := m, handler := h }],
        methods := r.methods.map (fun kt => (kt.1, add kt.2 m.pfx r.routes.length)),
        wildcard := add r.wildcard m.pfx r.routes.length } := by
  rw [handleR, hmo]

theorem handleR_some (r : GoRouter) (m : MatcherS) (h : Nat) (ms : List Str)
    (hmo : m.methodsOf = some ms) :
    handleR r m h =
      { routes := r.routes ++ [{ matcher := m, handler := h }],
        methods := handleMethods r.wildcard m.pfx r.routes.length ms r.methods,
        wildcard := r.wildcard } := by
  rw [handleR, hmo]

theorem buildRouter_RI : ∀ (rs : List (MatcherS × Nat)),
    (∀ mh ∈ rs, ∀ ms, mh.1.methodsOf = some ms → ms.Nodup) →
    RI rs (buildRouter rs) := by
  intro rs
  induction rs using List.reverseRecOn with
  | nil =>
    intro _
    refine ⟨rfl, rfl, ?_, ?_⟩
    · intro m t ht
      exact absurd ht (by rw [show (buildRouter []).methods = [] from rfl, lookupAssoc]; simp)
    · intro m _ mh hmh
      simp at hmh
  | append_singleton rs mh ih =>
    intro hnd
    have hnd' : ∀ mh2 ∈ rs, ∀ ms, mh2.1.methodsOf = some ms → ms.Nodup :=
      fun mh2 h2 => hnd mh2 (List.mem_append.mpr (Or.inl h2))
    obtain ⟨hroutes, hwc, hmeth, hcover⟩ := ih hnd'
    have hlen : (buildRouter rs).routes.length = rs.length := by
      rw [hroutes, List.length_map]
    rw [buildRouter_append]
    rcases hmo : mh.1.methodsOf with _ | ms
    · rw [handleR_none _ _ _ hmo]
      refine ⟨?_, ?_, ?_, ?_⟩
      · simp [hroutes]
      · simp only [wPairs_append, hmo, Option.isNone_none, if_pos]
        rw [buildTrie_append_one, hwc, hlen]
      · intro m t ht
        simp only at ht
        rw [lookupAssoc_map_add] at ht
        rcases hl : lookupAssoc (buildRouter rs).methods m with _ | t0
        · rw [hl] at ht
          exact absurd ht (by simp)
        · rw [hl] at ht
          simp at ht
          rw [mPairs_append, ← ht, hmeth m t0 hl]
          simp only [allowsM, hmo, if_pos, buildTrie_append_one, hlen]
      · intro m hm mh2 hmh2 ms2 hms2
        simp only at hm
        rw [lookupAssoc_map_add] at hm
        rcases List.mem_append.mp hmh2 with h2 | h2
        · rcases hl : lookupAssoc (buildRouter rs).methods m with _ | t0
          · exact hcover m hl mh2 h2 ms2 hms2
          · rw [hl] at hm
            exact absurd hm (by simp)
        · rw [List.mem_singleton.mp h2] at hms2
          rw [hms2] at hmo
          exact absurd hmo (by simp)
    · rw [handleR_some _ _ _ ms hmo]
      have hndms : ms.Nodup := hnd mh (List.mem_append.mpr (Or.inr (List.mem_singleton.mpr rfl))) ms hmo
      refine ⟨?_, ?_, ?_, ?_⟩
      · simp [hroutes]
      · simp only [wPairs_append, hmo, Option.isNone_some, if_neg, Bool.false_eq_true,
          not_false_iff, List.append_nil]
        exact hwc
      · intro m t ht
        simp only at ht
        by_cases hmms : m ∈ ms
        · rw [handleMethods_lookup_mem _ _ _ ms hndms _ m hmms] at ht
          have hall : allowsM m (some ms) = true := by
            rw [allowsM]
            exact List.elem_iff.mpr hmms
          rw [mPairs_append]
          simp only [hmo, hall, if_pos, buildTrie_append_one]
          rcases hl : lookupAssoc (buildRouter rs).methods m with _ | t0
          · rw [hl] at ht
            simp only [Option.some_inj] at ht
            rw [← ht, clone_eq, hwc, hlen,
              mPairs_eq_wPairs m rs (hcover m hl)]
          · rw [hl] at ht
            simp only [Option.some_inj] at ht
            rw [← ht, hmeth m t0 hl, hlen]
        · rw [handleMethods_lookup_notmem _ _ _ ms _ m hmms] at ht
          have hall : allowsM m (some ms) = false := by
            rw [allowsM]
            exact (Bool.eq_false_iff).mpr (fun h => hmms (List.elem_iff.mp h))
          rw [mPairs_append]
          simp only [hmo, hall, Bool.false_eq_true, if_neg, not_false_iff, List.append_nil]
          exact hmeth m t ht
      · intro m hm mh2 hmh2 ms2 hms2
        simp only at hm
        by_cases hmms : m ∈ ms
        · rw [handleMethods_lookup_mem _ _ _ ms hndms _ m hmms] at hm
          exact absurd hm (by simp)
        · rw [handleMethods_lookup_notmem _ _ _ ms _ m hmms] at hm
          rcases List.mem_append.mp hmh2 with h2 | h2
          · exact hcover m hm mh2 h2 ms2 hms2
          · rw [List.mem_singleton.mp h2] at hms2
            rw [hms2] at hmo
            rw [Option.some_inj.mp hmo]
            exact hmms

theorem mem_idxList_foldl : ∀ (ps : List (Str × Nat)) (t : TrieNode), StructInv t → ∀ x : Nat,
    x ∈ (ps.foldl (fun t pi => add t pi.1 pi.2) t).idxList
      ↔ x ∈ t.idxList ∨ ∃ pi ∈ ps, x = pi.2 := by
  intro ps
  induction ps with
  | nil => intro t ht x; simp
  | cons pi ps ih =>
    intro t ht x
    rw [List.foldl_cons, ih _ (structInv_add pi.1.length pi.1 (le_refl _) t pi.2 ht) x,
      mem_idxList_add pi.1.length pi.1 (le_refl _) t ht pi.2 x]
    constructor
    · rintro ((hx | hx) | ⟨pi2, hpi2, hx⟩)
      · exact Or.inl hx
      · exact Or.inr ⟨pi, List.mem_cons_self _ _, hx⟩
      · exact Or.inr ⟨pi2, List.mem_cons_of_mem _ hpi2, hx⟩
    · rintro (hx | ⟨pi2, hpi2, hx⟩)
      · exact Or.inl (Or.inl hx)
      · rcases List.mem_cons.mp hpi2 with rfl | hpi2
        · exact Or.inl (Or.inr hx)
        · exact Or.inr ⟨pi2, hpi2, hx⟩

theorem mem_idxList_buildTrie (ps : List (Str × Nat)) (x : Nat) :
    x ∈ (buildTrie ps).idxList ↔ ∃ pi ∈ ps, x = pi.2 := by
  rw [buildTrie, mem_idxList_foldl ps emptyTrie structInv_empty x]
  simp [emptyTrie, TrieNode.idxList, ChildList.idxListC]

theorem enumFrom_mem_iff {α : Type} (l : List α) : ∀ (k i : Nat) (a : α),
    ((i, a) ∈ enumFrom k l) ↔ (k ≤ i ∧ l.get? (i - k) = some a) := by
  induction l with
  | nil => intro k i a; simp [enumFrom]
  | cons y ys ih =>
    intro k i a
    simp only [enumFrom, List.mem_cons, ih (k + 1), Prod.mk.injEq]
    constructor
    · rintro (⟨rfl, rfl⟩ | ⟨hk, hg⟩)
      · exact ⟨le_refl _, by simp⟩
      · refine ⟨by omega, ?_⟩
        rw [show i - k = (i - (k + 1)) + 1 from by omega]
        simpa using hg
    · rintro ⟨hk, hg⟩
      by_cases hik : i = k
      · subst hik
        simp only [Nat.sub_self, List.get?] at hg
        exact Or.inl ⟨rfl, (Option.some_inj.mp hg).symm⟩
      · refine Or.inr ⟨by omega, ?_⟩
        rw [show i - k = (i - (k + 1)) + 1 from by omega] at hg
        simpa using hg

theorem mem_sndPairs (m : Str) (rs : List (MatcherS × Nat)) (x : Nat) :
    (∃ pi ∈ mPairs m rs, x = pi.2)
      ↔ ∃ mh, rs.get? x = some mh ∧ allowsM m mh.1.methodsOf = true := by
  rw [mPairs]
  constructor
  · rintro ⟨pi, hpi, rfl⟩
    obtain ⟨imh, hmem, hf⟩ := List.mem_filterMap.mp hpi
    obtain ⟨i0, mh0⟩ := imh
    by_cases ha : allowsM m mh0.1.methodsOf
    · rw [if_pos ha] at hf
      have hpi2 : pi = (mh0.1.pfx, i0) := (Option.some_inj.mp hf).symm
      obtain ⟨_, hg⟩ := (enumFrom_mem_iff rs 0 i0 mh0).mp hmem
      rw [hpi2]
      exact ⟨mh0, by simpa using hg, ha⟩
    · rw [if_neg ha] at hf
      exact absurd hf (by simp)
  · rintro ⟨mh, hg, hals⟩
    refine ⟨(mh.1.pfx, x), List.mem_filterMap.mpr ⟨(x, mh), ?_, ?_⟩, rfl⟩
    · exact (enumFrom_mem_iff rs 0 x mh).mpr ⟨Nat.zero_le _, by simpa using hg⟩
    · simp [hals]

theorem allowsM_iff (m : Str) (mo : Option (List Str)) :
    allowsM m mo = true ↔ (mo = none ∨ ∃ ms, mo = some ms ∧ m ∈ ms) := by
  rcases mo with _ | ms
  · simp [allowsM]
  · simp [allowsM, List.elem_iff]

/-- C3: after any sequence of `Handle` registrations, every per-method trie
stores exactly the indices of the unrestricted registrations plus those
whose method set contains that method; routes restricted to other methods
never appear.  (`ms.Nodup` reflects that Go method sets are map keys.) -/
theorem C3_method_trie_content (rs : List (MatcherS × Nat))
    (hnd : ∀ mh ∈ rs, ∀ ms, mh.1.methodsOf = some ms → ms.Nodup)
    (m : Str) (t : TrieNode)
    (hl : lookupAssoc (buildRouter rs).methods m = some t) (x : Nat) :
    x ∈ t.idxList
      ↔ ∃ mh, rs.get? x = some mh ∧
          (mh.1.methodsOf = none ∨ ∃ ms, mh.1.methodsOf = some ms ∧ m ∈ ms) := by
  obtain ⟨_, _, hmeth, _⟩ := buildRouter_RI rs hnd
  rw [hmeth m t hl, mem_idxList_buildTrie, mem_sndPairs]
  constructor
  · rintro ⟨mh, hg, hals⟩
    exact ⟨mh, hg, (allowsM_iff m mh.1.methodsOf).mp hals⟩
  · rintro ⟨mh, hg, hd⟩
    exact ⟨mh, hg, (allowsM_iff m mh.1.methodsOf).mpr hd⟩

/-- A matcher that never matches: the `Match` value is irrelevant to what
`Handle` stores in the tries. -/
def neverMatch : Request → Option Request := fun _ => none

def rsC3 : List (MatcherS × Nat) :=
  [({ matchFn := neverMatch, methodsOf := some [str "GET"], pfx := str "/a" }, 10),
   ({ matchFn := neverMatch, methodsOf := none, pfx := str "/b" }, 20),
   ({ matchFn := neverMatch, methodsOf := some [str "POST"], pfx := str "/c" }, 30)]

theorem rsC3_nodup : ∀ mh ∈ rsC3, ∀ ms, mh.1.methodsOf = some ms → ms.Nodup := by
  intro mh hmh ms hms
  rcases List.mem_cons.mp hmh with rfl | hmh
  · simp only [Option.some_inj] at hms
    rw [← hms]
    simp
  · rcases List.mem_cons.mp hmh with rfl | hmh
    · simp at hms
    · rcases List.mem_cons.mp hmh with rfl | hmh
      · simp only [Option.some_inj] at hms
        rw [← hms]
        simp
      · simp at hmh

def tC3 : TrieNode := (lookupAssoc (buildRouter rsC3).methods (str "GET")).getD emptyTrie

theorem C3_method_trie_content_witness :
    (∀ mh ∈ rsC3, ∀ ms, mh.1.methodsOf = some ms → ms.Nodup)
    ∧ lookupAssoc (buildRouter rsC3).methods (str "GET") = some tC3
    ∧ (0 ∈ tC3.idxList
        ↔ ∃ mh, rsC3.get? 0 = some mh ∧
            (mh.1.methodsOf = none ∨ ∃ ms, mh.1.methodsOf = some ms ∧ str "GET" ∈ ms)) :=
  ⟨rsC3_nodup, by rfl,
    C3_method_trie_content rsC3 rsC3_nodup (str "GET") tC3 (by rfl) 0⟩

/-! ## Trie dispatch refines the in-order reference router -/

/-- The documented `Matcher.Prefix` contract: a matcher only matches
requests whose bound path has `Prefix()` as a literal prefix. -/
def PrefixSound (u : MatcherS) : Prop :=
  ∀ (req : Request) (path : Str) (req2 : Request),
    ctxValueP req.ctx .pathKey = some (.vstr path) →
    u.matchFn req = some req2 → u.pfx <+: path

/-- The documented `Matcher.Methods` contract: a matcher only matches
requests whose method is in `Methods()` (or any method when unknown). -/
def MethodSound (u : MatcherS) : Prop :=
  ∀ (req req2 : Request), u.matchFn req = some req2 →
    (u.methodsOf = none ∨ ∃ ms, u.methodsOf = some ms ∧ req.method ∈ ms)

/-- The registration indices, from position `k` on, of the routes admitted
by method `m` whose prefix is a literal prefix of `path` — what the walk's
candidate set contains for the suffix of the route list starting at `k`. -/
def candIdxs (m : Str) (path : Str) : Nat → List RRoute → List Nat
  | _, [] => []
  | k, rt :: tl =>
    if (allowsM m rt.matcher.methodsOf = true) ∧ rt.matcher.pfx <+: path
    then k :: candIdxs m path (k + 1) tl
    else candIdxs m path (k + 1) tl

theorem candIdxs_cons (m path : Str) (k : Nat) (rt : RRoute) (tl : List RRoute) :
    candIdxs m path k (rt :: tl)
      = if (allowsM m rt.matcher.methodsOf = true) ∧ rt.matcher.pfx <+: path
        then k :: candIdxs m path (k + 1) tl
        else candIdxs m path (k + 1) tl := rfl

theorem candIdxs_eq (m path : Str) : ∀ (rs : List (MatcherS × Nat)) (k : Nat),
    (((enumFrom k rs).filterMap (fun imh =>
        if allowsM m imh.2.1.methodsOf then some (imh.2.1.pfx, imh.1) else none)).filter
      (fun pi => decide (pi.1 <+: path))).map Prod.snd
    = candIdxs m path k (rs.map (fun mh => { matcher := mh.1, handler := mh.2 })) := by
  intro rs
  induction rs with
  | nil => intro k; rfl
  | cons mh rs ih =>
    intro k
    simp only [enumFrom, List.filterMap_cons, List.map_cons]
    rw [candIdxs_cons]
    by_cases ha : allowsM m mh.1.methodsOf
    · rw [if_pos ha]
      by_cases hp : mh.1.pfx <+: path
      · rw [if_pos ⟨ha, hp⟩]
        simp only [List.filter_cons, decide_eq_true hp, if_pos, List.map_cons, ih (k + 1)]
      · rw [if_neg (fun hc => hp hc.2)]
        have hd : decide (mh.1.pfx <+: path) = false := by simp [hp]
        simp only [List.filter_cons, hd, Bool.false_eq_true, if_neg, not_false_iff, ih (k + 1)]
    · rw [if_neg (by simpa using ha), if_neg (fun hc => ha hc.1)]
      exact ih (k + 1)

theorem firstMatch_scan (req : Request) (path : Str)
    (hpath : ctxValueP req.ctx .pathKey = some (.vstr path)) :
    ∀ (tl : List RRoute) (pos : Nat) (routes : List RRoute),
    routes.drop pos = tl →
    (∀ rt ∈ tl, PrefixSound rt.matcher ∧ MethodSound rt.matcher) →
    (match firstMatch routes req (candIdxs req.method path pos tl) with
     | some r => r
     | none => { req with ctx := .matchOverlay req.ctx none none })
    = simpleRouteAux pos req tl := by
  intro tl
  induction tl with
  | nil => intro pos routes _ _; rfl
  | cons rt tl ih =>
    intro pos routes hdrop hok
    have hget : routes.get? pos = some rt := by
      have h0 : (routes.drop pos).get? 0 = some rt := by rw [hdrop]; rfl
      rw [List.get?_drop] at h0
      simpa using h0
    have hdrop' : routes.drop (pos + 1) = tl := by
      have h1 : routes.drop (pos + 1) = (routes.drop pos).drop 1 := by
        rw [List.drop_drop, Nat.add_comm]
      rw [h1, hdrop, List.drop_one, List.tail_cons]
    have hoktl : ∀ rt2 ∈ tl, PrefixSound rt2.matcher ∧ MethodSound rt2.matcher :=
      fun rt2 h2 => hok rt2 (List.mem_cons_of_mem _ h2)
    rw [candIdxs_cons]
    by_cases hc : (allowsM req.method rt.matcher.methodsOf = true) ∧ rt.matcher.pfx <+: path
    · rw [if_pos hc]
      rcases hm : rt.matcher.matchFn req with _ | req2
      · have hlhs : firstMatch routes req (pos :: candIdxs req.method path (pos + 1) tl)
            = firstMatch routes req (candIdxs req.method path (pos + 1) tl) := by
          rw [firstMatch, hget]
          simp only [hm]
        rw [hlhs, simpleRouteAux, hm, ← ih (pos + 1) routes hdrop' hoktl]
      · have hlhs : firstMatch routes req (pos :: candIdxs req.method path (pos + 1) tl)
            = some { req2 with ctx := .matchOverlay req2.ctx (some pos) (some rt.handler) } := by
          rw [firstMatch, hget]
          simp only [hm]
        rw [hlhs, simpleRouteAux, hm]
    · rw [if_neg hc]
      have hm : rt.matcher.matchFn req = none := by
        rcases hmm : rt.matcher.matchFn req with _ | req2
        · rfl
        · exfalso
          obtain ⟨hPS, hMS⟩ := hok rt (List.mem_cons_self _ _)
          have hA : allowsM req.method rt.matcher.methodsOf = true := by
            rcases hMS req req2 hmm with h | ⟨ms, hms, hmem⟩
            · rw [h]; rfl
            · rw [hms, allowsM]
              exact List.elem_iff.mpr hmem
          exact hc ⟨hA, hPS req path req2 hpath hmm⟩
      rw [simpleRouteAux, hm, ← ih (pos + 1) routes hdrop' hoktl]

/-- C1: for every registered route list whose matchers honour the documented
`Prefix()` and `Methods()` contracts, and every request with a bound path,
trie-based dispatch (`router.Route`) returns exactly the reference result:
the in-registration-order first-match scan (`simpleRouter.Route`), including
the winning route index, handler and enriched request, or the same unmatched
result. -/
theorem C1_trie_dispatch_refines_reference (rs : List (MatcherS × Nat))
    (hsound : ∀ mh ∈ rs, PrefixSound mh.1 ∧ MethodSound mh.1)
    (hnd : ∀ mh ∈ rs, ∀ ms, mh.1.methodsOf = some ms → ms.Nodup)
    (req : Request) (path : Str)
    (hpath : ctxValueP req.ctx .pathKey = some (.vstr path)) :
    routeR (buildRouter rs) req = some (simpleRoute (buildRouter rs).routes req) := by
  obtain ⟨hroutes, hwc, hmeth, hcover⟩ := buildRouter_RI rs hnd
  have htn : (match lookupAssoc (buildRouter rs).methods req.method with
      | some t => t
      | none => (buildRouter rs).wildcard) = buildTrie (mPairs req.method rs) := by
    rcases hl : lookupAssoc (buildRouter rs).methods req.method with _ | t
    · rw [hwc, mPairs_eq_wPairs req.method rs (hcover req.method hl)]
    · exact hmeth req.method t hl
  have hcands : (walk (buildTrie (mPairs req.method rs)) path).routes
      = candIdxs req.method path 0 (buildRouter rs).routes := by
    rw [walkRoutes_buildTrie, hroutes, mPairs]
    exact candIdxs_eq req.method path rs 0
  have hok : ∀ rt ∈ (buildRouter rs).routes, PrefixSound rt.matcher ∧ MethodSound rt.matcher := by
    rw [hroutes]
    intro rt hrt
    obtain ⟨mh, hmh, rfl⟩ := List.mem_map.mp hrt
    exact hsound mh hmh
  rw [routeR, hpath, htn]
  show some (match firstMatch (buildRouter rs).routes req
      (walk (buildTrie (mPairs req.method rs)) path).routes with
    | some req2 => req2
    | none => { req with ctx := .matchOverlay req.ctx none none })
    = some (simpleRoute (buildRouter rs).routes req)
  rw [hcands, firstMatch_scan req path hpath (buildRouter rs).routes 0 (buildRouter rs).routes
    (List.drop_zero _) hok]
  rfl

/-- A concrete contract-honouring matcher: matches when its pattern text is
a literal prefix of the bound path (what `New` produces for a pattern with
no captures and no trailing wildcard behaves like on such paths). -/
def litMatcher (p : Str) : MatcherS :=
  { matchFn := fun req =>
      match ctxValueP req.ctx .pathKey with
      | some (.vstr path) => if p <+: path then some req else none
      | _ => none,
    methodsOf := none,
    pfx := p }

theorem litMatcher_sound (p : Str) : PrefixSound (litMatcher p) ∧ MethodSound (litMatcher p) := by
  constructor
  · intro req path req2 hpath hm
    simp only [litMatcher, hpath] at hm
    by_cases hp : p <+: path
    · exact hp
    · rw [if_neg hp] at hm
      exact absurd hm (by simp)
  · intro req req2 _
    exact Or.inl rfl

def rsC1 : List (MatcherS × Nat) := [(litMatcher (str "/a"), 7), (litMatcher (str "/"), 8)]

theorem rsC1_sound : ∀ mh ∈ rsC1, PrefixSound mh.1 ∧ MethodSound mh.1 := by
  intro mh hmh
  rcases List.mem_cons.mp hmh with rfl | hmh
  · exact litMatcher_sound _
  · rcases List.mem_cons.mp hmh with rfl | hmh
    · exact litMatcher_sound _
    · simp at hmh

theorem rsC1_nodupMs : ∀ mh ∈ rsC1, ∀ ms, mh.1.methodsOf = some ms → ms.Nodup := by
  intro mh hmh ms hms
  rcases List.mem_cons.mp hmh with rfl | hmh
  · simp [litMatcher] at hms
  · rcases List.mem_cons.mp hmh with rfl | hmh
    · simp [litMatcher] at hms
    · simp at hmh

theorem C1_trie_dispatch_refines_reference_witness :
    (∀ mh ∈ rsC1, PrefixSound mh.1 ∧ MethodSound mh.1)
    ∧ (∀ mh ∈ rsC1, ∀ ms, mh.1.methodsOf = some ms → ms.Nodup)
    ∧ ctxValueP (mkReq (str "GET") (str "/ab")).ctx .pathKey = some (.vstr (str "/ab"))
    ∧ routeR (buildRouter rsC1) (mkReq (str "GET") (str "/ab"))
        = some (simpleRoute (buildRouter rsC1).routes (mkReq (str "GET") (str "/ab"))) :=
  ⟨rsC1_sound, rsC1_nodupMs, rfl,
    C1_trie_dispatch_refines_reference rsC1 rsC1_sound rsC1_nodupMs
      (mkReq (str "GET") (str "/ab")) (str "/ab") rfl⟩
